import Mathlib

/-!
Verification of the Open-AutoGemini streaming response pipeline.

Text is modelled as `List Char`.  Python string operations used by the
source (`in`, `split(pat, 1)`, `replace(pat, "")`, `strip()`,
`endswith`, `startswith`) are given direct executable translations below,
and the incremental marker scanner that is inlined in
`phone_agent/model/openai_handler.py` (lines 67-107) and
`phone_agent/model/gemini_handler.py` (lines 217-256) is modelled as a
step function on an explicit `ScanState`, with the console prints of
thinking text collected as an explicit list of emitted chunks.
-/

/-- Models the Python substring test `pat in s`:
true iff `pat` occurs as a contiguous substring of `s`. -/
def containsSubstr (pat s : List Char) : Bool :=
  (List.range (s.length + 1)).any fun i => pat.isPrefixOf (s.drop i)

/-- The text strictly before the first occurrence of `pat` in `s`
(`s.split(pat, 1)[0]` in Python); all of `s` when `pat` does not occur. -/
def takeBeforeFirst (pat : List Char) : List Char → List Char
  | [] => []
  | c :: rest =>
    if pat.isPrefixOf (c :: rest) then []
    else c :: takeBeforeFirst pat rest

/-- The text from the first occurrence of `pat` in `s` onward
(so `pat ++ s.split(pat, 1)[1]` in Python); `[]` when `pat` does not occur. -/
def dropFromFirst (pat : List Char) : List Char → List Char
  | [] => []
  | c :: rest =>
    if pat.isPrefixOf (c :: rest) then c :: rest
    else dropFromFirst pat rest

/-- Models Python `s.replace(pat, "")` for a non-empty pattern: removes all
(left-to-right, non-overlapping) occurrences of `pat` from `s`. -/
def removeAll (pat : List Char) (s : List Char) : List Char :=
  match s with
  | [] => []
  | c :: rest =>
    if h : pat ≠ [] ∧ pat.isPrefixOf (c :: rest) then
      removeAll pat ((c :: rest).drop pat.length)
    else
      c :: removeAll pat rest
termination_by s.length
decreasing_by
  · simp only [List.length_drop, List.length_cons]
    have hlen : 0 < pat.length := List.length_pos.mpr h.1
    omega
  · simp only [List.length_cons]
    omega

/-- Models Python `s.strip()`: removes leading and trailing whitespace. -/
def pyStrip (s : List Char) : List Char :=
  ((s.dropWhile Char.isWhitespace).reverse.dropWhile Char.isWhitespace).reverse

/-- The literal finish-call marker `"finish(message="`. -/
def finishMarker : List Char := "finish(message=".toList

/-- The literal do-call marker `"do(action="`. -/
def doMarker : List Char := "do(action=".toList

/-- `action_markers = ["finish(message=", "do(action="]` from both handlers;
the scanning loops check the two markers in this order. -/
def actionMarkers : List (List Char) := [finishMarker, doMarker]

/-- The first marker (in the handlers' fixed priority order) occurring as a
substring of the buffer; embeds the `for marker in action_markers: if marker
in buffer` loop of both handlers. -/
def findMarker (buffer : List Char) : Option (List Char) :=
  actionMarkers.find? fun m => containsSubstr m buffer

/-- Embeds the potential-marker check of both handlers: some strict,
non-empty prefix `marker[:i]` (for `i in range(1, len(marker))`) of some
action marker is a suffix of the buffer. -/
def isPotentialMarker (buffer : List Char) : Bool :=
  actionMarkers.any fun m =>
    (List.range' 1 (m.length - 1)).any fun i => (m.take i).isSuffixOf buffer

/-- The mutable scanning state threaded through the streaming loops of
`openai_request` and `gemini_request`.  Clock readings are abstracted as
natural numbers (the value of `time.time() - start_time` at a step). -/
structure ScanState where
  raw_content : List Char
  buffer : List Char
  in_action_phase : Bool
  first_token_received : Bool
  time_to_first_token : Option Nat
  time_to_thinking_end : Option Nat
deriving Repr, DecidableEq

/-- The state at the start of both streaming loops. -/
def initScan : ScanState :=
  { raw_content := []
    buffer := []
    in_action_phase := false
    first_token_received := false
    time_to_first_token := none
    time_to_thinking_end := none }

/-- One step of the incremental marker scanner on an arriving text content
piece, translated from `openai_handler.py` lines 67-107 (the identical code
appears for text parts in `gemini_handler.py` lines 217-256 and for thought
parts in lines 164-202).  Returns the updated state together with the list
of thinking chunks printed during the step. -/
def scanText (st : ScanState) (content : List Char) (now : Nat) :
    ScanState × List (List Char) :=
  let raw := st.raw_content ++ content
  let tft := if st.first_token_received then st.time_to_first_token else some now
  let st1 : ScanState :=
    { st with
      raw_content := raw
      first_token_received := true
      time_to_first_token := tft }
  if st1.in_action_phase then (st1, [])
  else
    let buffer := st.buffer ++ content
    match findMarker buffer with
    | some m =>
      let thinking_part := takeBeforeFirst m buffer
      ({ st1 with
         buffer := buffer
         in_action_phase := true
         time_to_thinking_end :=
           if st1.time_to_thinking_end = none then some now
           else st1.time_to_thinking_end },
       [thinking_part])
    | none =>
      if isPotentialMarker buffer then
        ({ st1 with buffer := buffer }, [])
      else
        ({ st1 with buffer := [] }, [buffer])

/-- `ModelClient._parse_response` from `phone_agent/model/client.py`
lines 113-147: split the final raw content into the thinking and action
parts, with the documented rule precedence. -/
def parse_response (content : List Char) : List Char × List Char :=
  if pyStrip content = [] then ([], [])
  else if containsSubstr finishMarker content then
    (pyStrip (takeBeforeFirst finishMarker content),
     pyStrip (removeAll "</answer>".toList (dropFromFirst finishMarker content)))
  else if containsSubstr doMarker content then
    (pyStrip (takeBeforeFirst doMarker content),
     pyStrip (removeAll "</answer>".toList (dropFromFirst doMarker content)))
  else if containsSubstr "<answer>".toList content then
    (pyStrip (removeAll "</think>".toList (removeAll "<think>".toList
        (takeBeforeFirst "<answer>".toList content))),
     pyStrip (removeAll "</answer>".toList
        ((dropFromFirst "<answer>".toList content).drop "<answer>".toList.length)))
  else ([], content)

/-! ### Compatible-chat adapter (`openai_handler.py`) -/

/-- One streamed delta of the chat-completions protocol, reduced to the
fields `openai_request` inspects: the optional vendor thought-signature
extension (`delta.extra_content.google.thought_signature`), the optional
`content` text, and the abstract clock reading at this step. -/
structure ODelta where
  extra_signature : Option (List Char)
  content : Option (List Char)
  time : Nat
deriving Repr, DecidableEq

/-- The full mutable state of the `openai_request` streaming loop. -/
structure OState where
  scan : ScanState
  thought_signature : Option (List Char)
deriving Repr, DecidableEq

/-- Processing of one delta inside the `openai_request` loop
(`openai_handler.py` lines 56-107): capture a truthy signature, then feed
any present `content` to the marker scanner. -/
def openai_step (st : OState) (d : ODelta) : OState × List (List Char) :=
  let sig :=
    match d.extra_signature with
    | some s => if s ≠ [] then some s else st.thought_signature
    | none => st.thought_signature
  match d.content with
  | none => ({ st with thought_signature := sig }, [])
  | some c =>
    let p := scanText st.scan c d.time
    ({ scan := p.1, thought_signature := sig }, p.2)

/-- The whole `openai_request` streaming loop over a list of deltas,
collecting every thinking chunk printed, from the initial loop state. -/
def openai_run (ds : List ODelta) : OState × List (List Char) :=
  ds.foldl
    (fun acc d =>
      let p := openai_step acc.1 d
      (p.1, acc.2 ++ p.2))
    (⟨initScan, none⟩, [])

/-! ### Action mapper (`gemini_handler.py` lines 9-16) -/

/-- Argument values of a function call (the JSON-shaped `args` mapping). -/
inductive JVal where
  | str : List Char → JVal
  | num : Int → JVal
  | arr : List JVal → JVal
deriving Repr

mutual

/-- Decidable equality on argument values. -/
def JVal.deq : (a b : JVal) → Decidable (a = b)
  | .str a, .str b =>
    match decEq a b with
    | isTrue h => isTrue (by rw [h])
    | isFalse h => isFalse (by intro hh; cases hh; exact h rfl)
  | .str _, .num _ => isFalse (by intro h; cases h)
  | .str _, .arr _ => isFalse (by intro h; cases h)
  | .num _, .str _ => isFalse (by intro h; cases h)
  | .num a, .num b =>
    match decEq a b with
    | isTrue h => isTrue (by rw [h])
    | isFalse h => isFalse (by intro hh; cases hh; exact h rfl)
  | .num _, .arr _ => isFalse (by intro h; cases h)
  | .arr _, .str _ => isFalse (by intro h; cases h)
  | .arr _, .num _ => isFalse (by intro h; cases h)
  | .arr a, .arr b =>
    match JVal.deqList a b with
    | isTrue h => isTrue (by rw [h])
    | isFalse h => isFalse (by intro hh; cases hh; exact h rfl)

/-- Decidable equality on lists of argument values. -/
def JVal.deqList : (a b : List JVal) → Decidable (a = b)
  | [], [] => isTrue rfl
  | [], _ :: _ => isFalse (by intro h; cases h)
  | _ :: _, [] => isFalse (by intro h; cases h)
  | x :: xs, y :: ys =>
    match JVal.deq x y, JVal.deqList xs ys with
    | isTrue h1, isTrue h2 => isTrue (by rw [h1, h2])
    | isFalse h1, _ => isFalse (by intro hh; cases hh; exact h1 rfl)
    | isTrue _, isFalse h2 => isFalse (by intro hh; cases hh; exact h2 rfl)

end

instance : DecidableEq JVal := JVal.deq

/-- The internal structured action produced by the action mapper: an action
kind tag, for the generic kind the action type carried as its argument, and
the remaining key/value arguments. -/
structure StructuredAction where
  kind : List Char
  action_type : Option (List Char)
  args : List (List Char × JVal)
deriving Repr, DecidableEq

/-- Modelled from the spec: `finish` from `phone_agent/actions/handler.py`
is not under `src/`; per the spec (4.5) it builds the termination action
kind directly, passing the arguments through unchanged. -/
def finish (args : List (List Char × JVal)) : StructuredAction :=
  { kind := "finish".toList, action_type := none, args := args }

/-- Modelled from the spec: `do` from `phone_agent/actions/handler.py` is
not under `src/`; per the spec (4.5) it builds the generic do action kind
with the action name carried as the action's type argument and the
remaining arguments merged in. -/
def «do» (action : List Char) (args : List (List Char × JVal)) :
    StructuredAction :=
  { kind := "do".toList, action_type := some action, args := args }

/-- `map_gemini_to_internal` from `gemini_handler.py` lines 9-16. -/
def map_gemini_to_internal (name : List Char) (args : List (List Char × JVal)) :
    StructuredAction :=
  if name = "finish".toList then finish args
  else
    let internal_name :=
      if name = "Long_Press".toList ∨ name = "Double_Tap".toList then
        name.map fun c => if c = '_' then ' ' else c
      else name
    «do» internal_name args

/-! ### Native multimodal adapter (`gemini_handler.py` lines 125-258) -/

/-- A native function-call part's payload. -/
structure FunctionCall where
  name : List Char
  args : List (List Char × JVal)
  id : Option (List Char)
deriving Repr, DecidableEq

/-- One streamed content part of the native protocol, reduced to the fields
`gemini_request` inspects, with the abstract clock reading at this step. -/
structure GPart where
  thoughtSignature : Option (List Char)
  thought : Option (List Char)
  functionCall : Option FunctionCall
  text : Option (List Char)
  time : Nat
deriving Repr, DecidableEq

/-- The full mutable state of the `gemini_request` streaming loop. -/
structure GState where
  scan : ScanState
  thought_signature : Option (List Char)
  structured_action : Option StructuredAction
  tool_call_id : Option (List Char)
deriving Repr, DecidableEq

/-- Signature capture of one part (`gemini_handler.py` lines 159-162):
a truthy `thoughtSignature` overwrites the carried signature. -/
def gemini_sig_step (st : GState) (p : GPart) : GState :=
  match p.thoughtSignature with
  | some s => if s ≠ [] then { st with thought_signature := some s } else st
  | none => st

/-- Thought handling of one part (`gemini_handler.py` lines 164-202): a
truthy thought string is fed to the marker scanner as thinking-phase text. -/
def gemini_thought_step (st : GState) (p : GPart) : GState × List (List Char) :=
  match p.thought with
  | some t =>
    if t ≠ [] then
      let r := scanText st.scan t p.time
      ({ st with scan := r.1 }, r.2)
    else (st, [])
  | none => (st, [])

/-- Application of one function call (`gemini_handler.py` lines 205-215):
record the call id, map the call to a structured action, and force the
action phase (recording the thinking-end time once). -/
def gemini_fc_apply (st : GState) (fc : FunctionCall) (now : Nat) : GState :=
  if ¬ st.scan.in_action_phase then
    { st with
      tool_call_id := fc.id
      structured_action := some (map_gemini_to_internal fc.name fc.args)
      scan :=
        { st.scan with
          in_action_phase := true
          time_to_thinking_end :=
            if st.scan.time_to_thinking_end = none then some now
            else st.scan.time_to_thinking_end } }
  else
    { st with
      tool_call_id := fc.id
      structured_action := some (map_gemini_to_internal fc.name fc.args) }

/-- Function-call handling of one part (`gemini_handler.py` lines 204-215). -/
def gemini_fc_step (st : GState) (p : GPart) : GState :=
  match p.functionCall with
  | some fc => gemini_fc_apply st fc p.time
  | none => st

/-- Text handling of one part (`gemini_handler.py` lines 217-256). -/
def gemini_text_step (st : GState) (p : GPart) : GState × List (List Char) :=
  match p.text with
  | some t =>
    let r := scanText st.scan t p.time
    ({ st with scan := r.1 }, r.2)
  | none => (st, [])

/-- Processing of one part inside the `gemini_request` loop
(`gemini_handler.py` lines 158-256): capture a truthy signature, feed a
truthy thought string to the scanner, map a function call (forcing the
action phase), then feed present text to the scanner. -/
def gemini_step (st : GState) (p : GPart) : GState × List (List Char) :=
  let st1 := gemini_sig_step st p
  let q1 := gemini_thought_step st1 p
  let st3 := gemini_fc_step q1.1 p
  let q2 := gemini_text_step st3 p
  (q2.1, q1.2 ++ q2.2)

/-- The whole `gemini_request` streaming loop over a list of parts. -/
def gemini_run (ps : List GPart) : GState × List (List Char) :=
  ps.foldl
    (fun acc p =>
      let q := gemini_step acc.1 p
      (q.1, acc.2 ++ q.2))
    (⟨initScan, none, none, none⟩, [])

/-! ### Model client (`client.py`) -/

/-- `ModelResponse` from `client.py` lines 28-41. -/
structure ModelResponse where
  thinking : List Char
  action : List Char
  raw_content : List Char
  thought_signature : Option (List Char)
  structured_action : Option StructuredAction
  tool_call_id : Option (List Char)
  time_to_first_token : Option Nat
  time_to_thinking_end : Option Nat
  total_time : Option Nat
deriving Repr, DecidableEq

/-- `ModelClient.request` over the compatible-chat adapter
(`client.py` lines 55-111): run the stream, compute the total time at the
end, and split the raw content with `_parse_response`. -/
def client_request_openai (ds : List ODelta) (endTime : Nat) : ModelResponse :=
  let r := openai_run ds
  let st := r.1
  let pr := parse_response st.scan.raw_content
  { thinking := pr.1
    action := pr.2
    raw_content := st.scan.raw_content
    thought_signature := st.thought_signature
    structured_action := none
    tool_call_id := none
    time_to_first_token := st.scan.time_to_first_token
    time_to_thinking_end := st.scan.time_to_thinking_end
    total_time := some endTime }

/-- `ModelClient.request` over the native adapter. -/
def client_request_gemini (ps : List GPart) (endTime : Nat) : ModelResponse :=
  let r := gemini_run ps
  let st := r.1
  let pr := parse_response st.scan.raw_content
  { thinking := pr.1
    action := pr.2
    raw_content := st.scan.raw_content
    thought_signature := st.thought_signature
    structured_action := st.structured_action
    tool_call_id := st.tool_call_id
    time_to_first_token := st.scan.time_to_first_token
    time_to_thinking_end := st.scan.time_to_thinking_end
    total_time := some endTime }

/-! ### Lemmas about the text utilities -/

theorem isPrefB_iff {l1 l2 : List Char} : l1.isPrefixOf l2 = true ↔ l1 <+: l2 :=
  List.isPrefixOf_iff_prefix

theorem isSuffB_iff {l1 l2 : List Char} : l1.isSuffixOf l2 = true ↔ l1 <:+ l2 :=
  List.isSuffixOf_iff_suffix

theorem containsSubstr_iff {pat s : List Char} :
    containsSubstr pat s = true ↔ ∃ i, pat <+: s.drop i := by
  unfold containsSubstr
  simp only [List.any_eq_true, List.mem_range]
  constructor
  · rintro ⟨i, _, h⟩
    exact ⟨i, isPrefB_iff.mp h⟩
  · rintro ⟨i, h⟩
    by_cases hi : i ≤ s.length
    · exact ⟨i, by omega, isPrefB_iff.mpr h⟩
    · have hd : s.drop i = [] := List.drop_eq_nil_of_le (by omega)
      rw [hd] at h
      have hp : pat = [] := List.prefix_nil.mp h
      exact ⟨0, by omega, isPrefB_iff.mpr (by simp [hp])⟩

theorem containsSubstr_of_occ {pat s : List Char} {i : Nat} (h : pat <+: s.drop i) :
    containsSubstr pat s = true :=
  containsSubstr_iff.mpr ⟨i, h⟩

/-- A substring occurrence inside an infix piece of a larger text gives an
occurrence in the larger text. -/
theorem occ_of_occ_drop_take {T : List Char} {a b i : Nat} {pat : List Char}
    (h : pat <+: ((T.take b).drop a).drop i) : pat <+: T.drop (a + i) := by
  have h1 : ((T.take b).drop a).drop i = (T.take b).drop (a + i) := by
    rw [List.drop_drop]
  rw [h1, List.drop_take] at h
  exact h.trans (List.take_prefix _ _)

theorem takeBeforeFirst_append_dropFromFirst (pat : List Char) :
    ∀ s : List Char, takeBeforeFirst pat s ++ dropFromFirst pat s = s := by
  intro s
  induction s with
  | nil => simp [takeBeforeFirst, dropFromFirst]
  | cons c rest ih =>
    by_cases h : pat.isPrefixOf (c :: rest)
    · simp [takeBeforeFirst, dropFromFirst, h]
    · simp only [takeBeforeFirst, dropFromFirst, h]
      simp [ih]

/-- Specification of `takeBeforeFirst` when the pattern occurs: its length
is the first occurrence position, the pattern occurs there, no earlier
position has an occurrence, and the result is the corresponding prefix. -/
theorem takeBeforeFirst_spec {pat : List Char} :
    ∀ {s : List Char}, containsSubstr pat s = true →
      pat <+: s.drop (takeBeforeFirst pat s).length ∧
      (∀ j < (takeBeforeFirst pat s).length, ¬ pat <+: s.drop j) ∧
      takeBeforeFirst pat s = s.take (takeBeforeFirst pat s).length := by
  intro s
  induction s with
  | nil =>
    intro hc
    rcases containsSubstr_iff.mp hc with ⟨i, hi⟩
    simp only [List.drop_nil] at hi
    have hp : pat = [] := List.prefix_nil.mp hi
    simp [takeBeforeFirst, hp]
  | cons c rest ih =>
    intro hc
    by_cases h : pat.isPrefixOf (c :: rest)
    · simp [takeBeforeFirst, h, isPrefB_iff.mp h]
    · have hrest : containsSubstr pat rest = true := by
        rcases containsSubstr_iff.mp hc with ⟨i, hi⟩
        cases i with
        | zero =>
          exfalso
          exact h (isPrefB_iff.mpr (by simpa using hi))
        | succ i' => exact containsSubstr_of_occ (by simpa using hi)
      rcases ih hrest with ⟨h1, h2, h3⟩
      refine ⟨?_, ?_, ?_⟩
      · simpa [takeBeforeFirst, h] using h1
      · intro j hj
        simp [takeBeforeFirst, h] at hj
        cases j with
        | zero =>
          intro hcontra
          exact h (isPrefB_iff.mpr (by simpa using hcontra))
        | succ j' =>
          intro hcontra
          exact h2 j' (by omega) (by simpa using hcontra)
      · simp only [takeBeforeFirst, h, List.length_cons, List.take_succ_cons]
        exact congrArg (c :: ·) h3

theorem isPotentialMarker_iff {buf : List Char} :
    isPotentialMarker buf = true ↔
      ∃ m ∈ actionMarkers, ∃ i, 0 < i ∧ i < m.length ∧ m.take i <:+ buf := by
  unfold isPotentialMarker
  simp only [List.any_eq_true, List.mem_range'_1]
  constructor
  · rintro ⟨m, hm, i, hi, hs⟩
    exact ⟨m, hm, i, by omega, by omega, isSuffB_iff.mp hs⟩
  · rintro ⟨m, hm, i, h1, h2, hs⟩
    exact ⟨m, hm, i, ⟨by omega, by omega⟩, isSuffB_iff.mpr hs⟩

theorem findMarker_eq (buf : List Char) :
    findMarker buf =
      if containsSubstr finishMarker buf then some finishMarker
      else if containsSubstr doMarker buf then some doMarker
      else none := by
  by_cases h1 : containsSubstr finishMarker buf <;>
    by_cases h2 : containsSubstr doMarker buf <;>
    simp [findMarker, actionMarkers, List.find?, h1, h2]

theorem findMarker_none_iff {buf : List Char} :
    findMarker buf = none ↔
      containsSubstr finishMarker buf = false ∧
      containsSubstr doMarker buf = false := by
  rw [findMarker_eq]
  by_cases h1 : containsSubstr finishMarker buf <;>
    by_cases h2 : containsSubstr doMarker buf <;> simp [h1, h2]

theorem occ_mono_take {T : List Char} {p n : Nat} {m : List Char}
    (ho : m <+: T.drop p) (hlen : p + m.length ≤ n) :
    m <+: (T.take n).drop p := by
  rw [List.drop_take]
  exact List.prefix_take_iff.mpr ⟨ho, by omega⟩

/-- An occurrence in the full text that fits inside a consumed prefix of it
is an occurrence in the consumed prefix. -/
theorem occ_restrict {T s : List Char} {p : Nat} {m : List Char}
    (hs : s <+: T) (ho : m <+: T.drop p) (hlen : p + m.length ≤ s.length) :
    m <+: s.drop p := by
  have h1 : s = T.take s.length := List.prefix_iff_eq_take.mp hs
  rw [h1]
  exact occ_mono_take ho hlen

/-- An occurrence in a prefix of the text is an occurrence in the text. -/
theorem occ_extend {T s : List Char} {p : Nat} {m : List Char}
    (hs : s <+: T) (ho : m <+: s.drop p) : m <+: T.drop p := by
  rcases hs with ⟨t, rfl⟩
  by_cases hp : p ≤ s.length
  · rw [List.drop_append_of_le_length hp]
    exact ho.trans (List.prefix_append _ _)
  · have hnil : s.drop p = [] := List.drop_eq_nil_of_le (by omega)
    rw [hnil] at ho
    have hm : m = [] := List.prefix_nil.mp ho
    simp [hm]

/-- If an occurrence of `m` starting at `p` has not completed by position
`n`, the consumed prefix of length `n` ends with a strict prefix of `m`. -/
theorem partial_occ_suffix {T m : List Char} {p n : Nat}
    (ho : m <+: T.drop p) (h1 : p ≤ n) (h2 : n < p + m.length) :
    m.take (n - p) <:+ T.take n := by
  have e1 : (T.take n).drop p = (T.drop p).take (n - p) := List.drop_take ..
  have e2 : (T.drop p).take (n - p) = m.take (n - p) := by
    rcases ho with ⟨u, hu⟩
    rw [← hu, List.take_append_of_le_length (by omega)]
  have h3 : (T.take n).drop p <:+ T.take n := List.drop_suffix _ _
  rw [e1, e2] at h3
  exact h3

theorem pref_getElem? {m T : List Char} {p k : Nat}
    (ho : m <+: T.drop p) (hk : k < m.length) :
    T[p + k]? = m[k]? := by
  rcases ho with ⟨u, hu⟩
  calc T[p + k]? = (T.drop p)[k]? := (List.getElem?_drop ..).symm
    _ = (m ++ u)[k]? := by rw [← hu]
    _ = m[k]? := List.getElem?_append_left hk

/-- The first character of either marker never recurs at a later position
inside either marker.  Used to rule out overlapping marker occurrences. -/
theorem marker_heads :
    ∀ m1 ∈ actionMarkers, ∀ m2 ∈ actionMarkers,
      ∀ j < m1.length, 0 < j → m1[j]? ≠ m2[0]? := by
  decide

theorem marker_length_pos : ∀ m ∈ actionMarkers, 0 < m.length := by
  decide

/-- Two marker occurrences in the same text never overlap at distinct
start positions. -/
theorem marker_occ_no_overlap {T m1 m2 : List Char} {p1 p2 : Nat}
    (h1 : m1 ∈ actionMarkers) (h2 : m2 ∈ actionMarkers)
    (o1 : m1 <+: T.drop p1) (o2 : m2 <+: T.drop p2)
    (hlt : p1 < p2) (hov : p2 < p1 + m1.length) : False := by
  have e1 : T[p2]? = m1[p2 - p1]? := by
    have h := pref_getElem? o1 (show p2 - p1 < m1.length by omega)
    rw [show p1 + (p2 - p1) = p2 by omega] at h
    exact h
  have e2 : T[p2]? = m2[0]? := by
    have h := pref_getElem? o2 (marker_length_pos m2 h2)
    rw [Nat.add_zero] at h
    exact h
  exact marker_heads m1 h1 m2 h2 (p2 - p1) (by omega) (by omega)
    (e1.symm.trans e2)

theorem pyStrip_eq_nil_iff {s : List Char} :
    pyStrip s = [] ↔ ∀ c ∈ s, c.isWhitespace := by
  unfold pyStrip
  rw [List.reverse_eq_nil_iff, List.dropWhile_eq_nil_iff]
  constructor
  · intro h c hc
    by_cases hmem : c ∈ s.dropWhile Char.isWhitespace
    · exact h c (by simpa using hmem)
    · have hsplit : s.takeWhile Char.isWhitespace ++ s.dropWhile Char.isWhitespace = s :=
        List.takeWhile_append_dropWhile _ _
      rw [← hsplit] at hc
      rcases List.mem_append.mp hc with hl | hr
      · exact List.mem_takeWhile_imp hl
      · exact absurd hr hmem
  · intro h c hc
    exact h c ((List.dropWhile_sublist _).subset (by simpa using hc))

/-! ### Step-shape lemmas for the scanner -/

theorem findMarker_nil : findMarker [] = none := by decide

theorem finishMarker_ne_doMarker : finishMarker ≠ doMarker := by decide

theorem scanText_inAction {st : ScanState} {c : List Char} {now : Nat}
    (hA : st.in_action_phase = true) :
    scanText st c now =
      ({ st with
         raw_content := st.raw_content ++ c
         first_token_received := true
         time_to_first_token :=
           if st.first_token_received then st.time_to_first_token else some now },
       []) := by
  simp [scanText, hA]

theorem scanText_found {st : ScanState} {c : List Char} {now : Nat} {m : List Char}
    (hA : st.in_action_phase = false)
    (hf : findMarker (st.buffer ++ c) = some m) :
    scanText st c now =
      ({ st with
         raw_content := st.raw_content ++ c
         buffer := st.buffer ++ c
         in_action_phase := true
         first_token_received := true
         time_to_first_token :=
           if st.first_token_received then st.time_to_first_token else some now
         time_to_thinking_end :=
           if st.time_to_thinking_end = none then some now
           else st.time_to_thinking_end },
       [takeBeforeFirst m (st.buffer ++ c)]) := by
  simp [scanText, hA, hf]

theorem scanText_withhold {st : ScanState} {c : List Char} {now : Nat}
    (hA : st.in_action_phase = false)
    (hf : findMarker (st.buffer ++ c) = none)
    (hp : isPotentialMarker (st.buffer ++ c) = true) :
    scanText st c now =
      ({ st with
         raw_content := st.raw_content ++ c
         buffer := st.buffer ++ c
         first_token_received := true
         time_to_first_token :=
           if st.first_token_received then st.time_to_first_token else some now },
       []) := by
  simp [scanText, hA, hf, hp]

theorem scanText_flush {st : ScanState} {c : List Char} {now : Nat}
    (hA : st.in_action_phase = false)
    (hf : findMarker (st.buffer ++ c) = none)
    (hp : isPotentialMarker (st.buffer ++ c) = false) :
    scanText st c now =
      ({ st with
         raw_content := st.raw_content ++ c
         buffer := []
         first_token_received := true
         time_to_first_token :=
           if st.first_token_received then st.time_to_first_token else some now },
       [st.buffer ++ c]) := by
  simp [scanText, hA, hf, hp]

/-! ### Run-level infrastructure -/

/-- The `openai_request` loop started from an arbitrary state. -/
def openai_run_from (st : OState) (ds : List ODelta) : OState × List (List Char) :=
  ds.foldl
    (fun acc d =>
      let p := openai_step acc.1 d
      (p.1, acc.2 ++ p.2))
    (st, [])

theorem openai_run_eq (ds : List ODelta) :
    openai_run ds = openai_run_from ⟨initScan, none⟩ ds := rfl

theorem openai_run_from_acc (ds : List ODelta) :
    ∀ (st : OState) (em0 : List (List Char)),
      ds.foldl
        (fun acc d =>
          let p := openai_step acc.1 d
          (p.1, acc.2 ++ p.2))
        (st, em0) =
      ((openai_run_from st ds).1, em0 ++ (openai_run_from st ds).2) := by
  induction ds with
  | nil => intro st em0; simp [openai_run_from]
  | cons d ds ih =>
    intro st em0
    simp only [List.foldl_cons, openai_run_from]
    rw [ih ((openai_step st d).1) (em0 ++ (openai_step st d).2)]
    rw [show List.foldl
        (fun acc d =>
          let p := openai_step acc.1 d
          (p.1, acc.2 ++ p.2))
        ((openai_step st d).1, [] ++ (openai_step st d).2) ds =
      ((openai_run_from ((openai_step st d).1) ds).1,
        ([] ++ (openai_step st d).2) ++ (openai_run_from ((openai_step st d).1) ds).2)
      from ih _ _]
    simp

theorem openai_run_from_cons (st : OState) (d : ODelta) (ds : List ODelta) :
    openai_run_from st (d :: ds) =
      ((openai_run_from (openai_step st d).1 ds).1,
       (openai_step st d).2 ++ (openai_run_from (openai_step st d).1 ds).2) := by
  show List.foldl _ _ _ = _
  simp only [List.foldl_cons]
  rw [openai_run_from_acc ds ((openai_step st d).1) ([] ++ (openai_step st d).2)]
  simp

/-- The `gemini_request` loop started from an arbitrary state. -/
def gemini_run_from (st : GState) (ps : List GPart) : GState × List (List Char) :=
  ps.foldl
    (fun acc p =>
      let q := gemini_step acc.1 p
      (q.1, acc.2 ++ q.2))
    (st, [])

theorem gemini_run_eq (ps : List GPart) :
    gemini_run ps = gemini_run_from ⟨initScan, none, none, none⟩ ps := rfl

theorem gemini_run_from_acc (ps : List GPart) :
    ∀ (st : GState) (em0 : List (List Char)),
      ps.foldl
        (fun acc p =>
          let q := gemini_step acc.1 p
          (q.1, acc.2 ++ q.2))
        (st, em0) =
      ((gemini_run_from st ps).1, em0 ++ (gemini_run_from st ps).2) := by
  induction ps with
  | nil => intro st em0; simp [gemini_run_from]
  | cons p ps ih =>
    intro st em0
    simp only [List.foldl_cons, gemini_run_from]
    rw [ih ((gemini_step st p).1) (em0 ++ (gemini_step st p).2)]
    rw [show List.foldl
        (fun acc p =>
          let q := gemini_step acc.1 p
          (q.1, acc.2 ++ q.2))
        ((gemini_step st p).1, [] ++ (gemini_step st p).2) ps =
      ((gemini_run_from ((gemini_step st p).1) ps).1,
        ([] ++ (gemini_step st p).2) ++ (gemini_run_from ((gemini_step st p).1) ps).2)
      from ih _ _]
    simp

theorem gemini_run_from_cons (st : GState) (p : GPart) (ps : List GPart) :
    gemini_run_from st (p :: ps) =
      ((gemini_run_from (gemini_step st p).1 ps).1,
       (gemini_step st p).2 ++ (gemini_run_from (gemini_step st p).1 ps).2) := by
  show List.foldl _ _ _ = _
  simp only [List.foldl_cons]
  rw [gemini_run_from_acc ps ((gemini_step st p).1) ([] ++ (gemini_step st p).2)]
  simp

theorem findMarker_some_elim {buf m : List Char} (hf : findMarker buf = some m) :
    m ∈ actionMarkers ∧ containsSubstr m buf = true := by
  rw [findMarker_eq] at hf
  by_cases h1 : containsSubstr finishMarker buf <;>
    by_cases h2 : containsSubstr doMarker buf <;>
    simp [h1, h2] at hf <;> subst hf <;> simp [actionMarkers, h1, h2]

/-! ### Scanner invariants -/

/-- The emitted-thinking region (a prefix of the text, of length `f`) stays
strictly before every marker occurrence in the full text `T`. -/
def EmitsSafe (T : List Char) (f : Nat) : Prop :=
  ∀ m ∈ actionMarkers, ∀ p : Nat, m <+: T.drop p → f ≤ p

/-- The full text has no do-marker occurrence strictly before a
finish-marker occurrence. -/
def NoDoBeforeFinish (T : List Char) : Prop :=
  ∀ p q : Nat, doMarker <+: T.drop p → finishMarker <+: T.drop q → ¬ p < q

/-- Structural invariant of the scanner state relative to the full text `T`
and the chunks emitted so far: the consumed raw text is a prefix of `T`,
the emitted chunks form a prefix of the consumed text, and outside of the
action phase the emitted text plus the pending buffer is exactly the
consumed text with no full marker inside the buffer. -/
def ScanInv (T : List Char) (st : ScanState) (em : List (List Char)) : Prop :=
  st.raw_content <+: T ∧
  em.flatten = st.raw_content.take em.flatten.length ∧
  (st.in_action_phase = false →
    em.flatten ++ st.buffer = st.raw_content ∧ findMarker st.buffer = none)

theorem scanInv_init (T : List Char) : ScanInv T initScan [] := by
  refine ⟨by simp [initScan], by simp, ?_⟩
  intro _
  exact ⟨by simp [initScan], by simp [initScan, findMarker_nil]⟩


theorem scanText_inv {T : List Char} {st : ScanState} {em : List (List Char)}
    {c : List Char} {now : Nat}
    (hinv : ScanInv T st em) (hraw : st.raw_content ++ c <+: T) :
    ScanInv T (scanText st c now).1 (em ++ (scanText st c now).2) := by
  obtain ⟨hT, hem, hact⟩ := hinv
  by_cases hA : st.in_action_phase
  · rw [scanText_inAction hA]
    refine ⟨hraw, ?_, ?_⟩
    · simp only [List.append_nil]
      have hle : em.flatten.length ≤ st.raw_content.length := by
        have hl := congrArg List.length hem
        simp only [List.length_take] at hl
        omega
      rw [List.take_append_of_le_length hle]
      exact hem
    · intro h
      simp only [hA] at h
      cases h
  · replace hA : st.in_action_phase = false := by simpa using hA
    obtain ⟨hbe, hfm⟩ := hact hA
    have hflen : em.flatten.length ≤ st.raw_content.length := by
      have hl := congrArg List.length hbe
      simp only [List.length_append] at hl
      omega
    have hbe' : em.flatten ++ (st.buffer ++ c) = st.raw_content ++ c := by
      rw [← List.append_assoc, hbe]
    have he1 : em.flatten = (st.raw_content ++ c).take em.flatten.length := by
      rw [← hbe', List.take_left' rfl]
    have he2 : (st.raw_content ++ c).drop em.flatten.length = st.buffer ++ c := by
      rw [← hbe']
      exact List.drop_left _ _
    cases hfind : findMarker (st.buffer ++ c) with
    | some m =>
      rw [scanText_found hA hfind]
      have hcontains := (findMarker_some_elim hfind).2
      obtain ⟨hB1, hB2, hB3⟩ := takeBeforeFirst_spec hcontains
      refine ⟨hraw, ?_, ?_⟩
      · have hflat : (em ++ [takeBeforeFirst m (st.buffer ++ c)]).flatten =
            em.flatten ++ takeBeforeFirst m (st.buffer ++ c) := by simp
        rw [hflat]
        simp only [List.length_append]
        rw [List.take_add, ← he1, he2, ← hB3]
      · intro h
        cases h
    | none =>
      cases hpot : isPotentialMarker (st.buffer ++ c) with
      | true =>
        rw [scanText_withhold hA hfind hpot]
        refine ⟨hraw, ?_, ?_⟩
        · simp only [List.append_nil]
          exact he1
        · intro _
          exact ⟨by simpa using hbe', hfind⟩
      | false =>
        rw [scanText_flush hA hfind hpot]
        refine ⟨hraw, ?_, ?_⟩
        · have hflat : (em ++ [st.buffer ++ c]).flatten =
              em.flatten ++ (st.buffer ++ c) := by simp
          rw [hflat, hbe']
          rw [List.take_length]
        · intro _
          refine ⟨by simpa using hbe', findMarker_nil⟩

/-- A suffix of `x ++ y` no longer than `y` is a suffix of `y`. -/
theorem suffix_of_suffix_len {a x y : List Char}
    (h : a <:+ x ++ y) (hl : a.length ≤ y.length) : a <:+ y := by
  rcases h with ⟨u, hu⟩
  have hxu : x.length ≤ u.length := by
    have hl2 := congrArg List.length hu
    simp only [List.length_append] at hl2
    omega
  have hy : y = (u ++ a).drop x.length := by
    rw [hu]
    exact (List.drop_left _ _).symm
  rw [List.drop_append_of_le_length hxu] at hy
  exact ⟨u.drop x.length, hy.symm⟩

theorem scanText_safe {T : List Char} {st : ScanState} {em : List (List Char)}
    {c : List Char} {now : Nat}
    (hnd : NoDoBeforeFinish T)
    (hinv : ScanInv T st em) (hraw : st.raw_content ++ c <+: T)
    (hsafe : EmitsSafe T em.flatten.length) :
    EmitsSafe T (em ++ (scanText st c now).2).flatten.length := by
  obtain ⟨hT, hem, hact⟩ := hinv
  by_cases hA : st.in_action_phase
  · rw [scanText_inAction hA]
    simpa using hsafe
  · replace hA : st.in_action_phase = false := by simpa using hA
    obtain ⟨hbe, hfm⟩ := hact hA
    have hbe' : em.flatten ++ (st.buffer ++ c) = st.raw_content ++ c := by
      rw [← List.append_assoc, hbe]
    have he2 : (st.raw_content ++ c).drop em.flatten.length = st.buffer ++ c := by
      rw [← hbe']
      exact List.drop_left _ _
    have hlen : em.flatten.length + (st.buffer ++ c).length =
        (st.raw_content ++ c).length := by
      have hl := congrArg List.length hbe'
      simpa using hl
    cases hfind : findMarker (st.buffer ++ c) with
    | some mc =>
      rw [scanText_found hA hfind]
      have hcontains := (findMarker_some_elim hfind).2
      have hmcmem := (findMarker_some_elim hfind).1
      obtain ⟨hB1, hB2, hB3⟩ := takeBeforeFirst_spec hcontains
      intro m hm p ho
      by_contra hcon
      push_neg at hcon
      set f := em.flatten.length with hfdef
      set i := (takeBeforeFirst mc (st.buffer ++ c)).length with hidef
      have hconp : p < f + i := by
        simp only [List.flatten_append, List.flatten_cons, List.flatten_nil,
          List.length_append, List.append_nil] at hcon
        omega
      have hfp : f ≤ p := hsafe m hm p ho
      have hile : i ≤ (st.buffer ++ c).length := by
        have hl := congrArg List.length hB3
        simp only [List.length_take] at hl
        omega
      have hq0 : mc <+: (st.raw_content ++ c).drop (f + i) := by
        have hq : (st.buffer ++ c).drop i = (st.raw_content ++ c).drop (f + i) := by
          rw [← he2, List.drop_drop]
        rw [← hq]
        exact hB1
      have hq0T : mc <+: T.drop (f + i) := occ_extend hraw hq0
      have hq0fit : f + i + mc.length ≤ (st.raw_content ++ c).length := by
        have hl := hq0.length_le
        simp only [List.length_drop] at hl
        omega
      have hmm' : m = finishMarker ∨ m = doMarker := by
        simpa [actionMarkers] using hm
      have hmcm' : mc = finishMarker ∨ mc = doMarker := by
        simpa [actionMarkers] using hmcmem
      by_cases hmeq : m = mc
      · subst hmeq
        by_cases hc1 : p + m.length ≤ (st.raw_content ++ c).length
        · have hop : m <+: (st.raw_content ++ c).drop p := occ_restrict hraw ho hc1
          have hob : m <+: (st.buffer ++ c).drop (p - f) := by
            have hq : (st.buffer ++ c).drop (p - f) = (st.raw_content ++ c).drop p := by
              rw [← he2, List.drop_drop]
              congr 1
              omega
            rw [hq]
            exact hop
          exact hB2 (p - f) (by omega) hob
        · omega
      · have hov : p < f + i ∧ f + i < p + m.length → False := by
          intro hpair
          exact marker_occ_no_overlap hm hmcmem ho hq0T hpair.1 hpair.2
        rcases hmm' with hmf | hmd
        · -- m = finishMarker, so mc = doMarker
          have hmcd : mc = doMarker := by
            rcases hmcm' with h | h
            · exact absurd (hmf.trans h.symm) hmeq
            · exact h
          have hnf : containsSubstr finishMarker (st.buffer ++ c) = false := by
            rw [findMarker_eq] at hfind
            by_cases h1 : containsSubstr finishMarker (st.buffer ++ c)
            · rw [if_pos h1] at hfind
              have : finishMarker = mc := by
                injection hfind
              rw [hmcd] at this
              exact absurd this finishMarker_ne_doMarker
            · simpa using h1
          by_cases hc1 : p + m.length ≤ (st.raw_content ++ c).length
          · have hop : m <+: (st.raw_content ++ c).drop p := occ_restrict hraw ho hc1
            have hob : m <+: (st.buffer ++ c).drop (p - f) := by
              have hq : (st.buffer ++ c).drop (p - f) = (st.raw_content ++ c).drop p := by
                rw [← he2, List.drop_drop]
                congr 1
                omega
              rw [hq]
              exact hop
            rw [hmf] at hob
            exact absurd (containsSubstr_of_occ hob) (by simp [hnf])
          · have hdlen : 0 < mc.length := marker_length_pos mc hmcmem
            exact hov ⟨hconp, by omega⟩
        · -- m = doMarker, so mc = finishMarker
          have hmcf : mc = finishMarker := by
            rcases hmcm' with h | h
            · exact h
            · exact absurd (hmd.trans h.symm) hmeq
          refine hnd p (f + i) ?_ ?_ hconp
          · rw [← hmd]
            exact ho
          · rw [← hmcf]
            exact hq0T
    | none =>
      cases hpot : isPotentialMarker (st.buffer ++ c) with
      | true =>
        rw [scanText_withhold hA hfind hpot]
        simpa using hsafe
      | false =>
        rw [scanText_flush hA hfind hpot]
        intro m hm p ho
        by_contra hcon
        push_neg at hcon
        set f := em.flatten.length with hfdef
        have hconp : p < f + (st.buffer ++ c).length := by
          simp only [List.flatten_append, List.flatten_cons, List.flatten_nil,
            List.length_append, List.append_nil] at hcon
          have hba : (st.buffer ++ c).length = st.buffer.length + c.length :=
            List.length_append _ _
          omega
        have hfp : f ≤ p := hsafe m hm p ho
        have hmm' : m = finishMarker ∨ m = doMarker := by
          simpa [actionMarkers] using hm
        by_cases hc1 : p + m.length ≤ (st.raw_content ++ c).length
        · have hop : m <+: (st.raw_content ++ c).drop p := occ_restrict hraw ho hc1
          have hob : m <+: (st.buffer ++ c).drop (p - f) := by
            have hq : (st.buffer ++ c).drop (p - f) = (st.raw_content ++ c).drop p := by
              rw [← he2, List.drop_drop]
              congr 1
              omega
            rw [hq]
            exact hop
          have hcs := containsSubstr_of_occ hob
          have hboth := findMarker_none_iff.mp hfind
          rcases hmm' with h | h <;> rw [h] at hcs
          · rw [hboth.1] at hcs
            cases hcs
          · rw [hboth.2] at hcs
            cases hcs
        · push_neg at hc1
          have hk1 : 0 < (st.raw_content ++ c).length - p := by omega
          have hk2 : (st.raw_content ++ c).length - p < m.length := by omega
          have hsuf : m.take ((st.raw_content ++ c).length - p) <:+
              T.take (st.raw_content ++ c).length :=
            partial_occ_suffix ho (by omega) (by omega)
          have hTeq : T.take (st.raw_content ++ c).length = st.raw_content ++ c :=
            (List.prefix_iff_eq_take.mp hraw).symm
          rw [hTeq] at hsuf
          have hlena : (m.take ((st.raw_content ++ c).length - p)).length =
              (st.raw_content ++ c).length - p := by
            simp only [List.length_take]
            omega
          have hsx : m.take ((st.raw_content ++ c).length - p) <:+
              em.flatten ++ (st.buffer ++ c) := by
            rw [hbe']
            exact hsuf
          have hsufb : m.take ((st.raw_content ++ c).length - p) <:+ st.buffer ++ c :=
            suffix_of_suffix_len hsx (by rw [hlena]; omega)
          have hpotTrue : isPotentialMarker (st.buffer ++ c) = true := by
            rw [isPotentialMarker_iff]
            exact ⟨m, hm, (st.raw_content ++ c).length - p, hk1, hk2, hsufb⟩
          rw [hpot] at hpotTrue
          cases hpotTrue

/-- The full text contains exactly one marker occurrence: marker `mU` at
position `pstar` and no other occurrence of either marker anywhere. -/
def UniqueOcc (T mU : List Char) (pstar : Nat) : Prop :=
  mU ∈ actionMarkers ∧ mU <+: T.drop pstar ∧
  ∀ m2 ∈ actionMarkers, ∀ p : Nat, m2 <+: T.drop p → m2 = mU ∧ p = pstar

theorem uniqueOcc_noDoBeforeFinish {T mU : List Char} {pstar : Nat}
    (hu : UniqueOcc T mU pstar) : NoDoBeforeFinish T := by
  intro p q hdo hfin hlt
  have h1 := hu.2.2 doMarker (by simp [actionMarkers]) p hdo
  have h2 := hu.2.2 finishMarker (by simp [actionMarkers]) q hfin
  omega

theorem scanText_unique {T mU : List Char} {pstar : Nat}
    {st : ScanState} {em : List (List Char)} {c : List Char} {now : Nat}
    (hu : UniqueOcc T mU pstar)
    (hinv : ScanInv T st em) (hraw : st.raw_content ++ c <+: T)
    (hprev : st.in_action_phase = true → em.flatten = T.take pstar) :
    (scanText st c now).1.in_action_phase = true →
      (em ++ (scanText st c now).2).flatten = T.take pstar := by
  obtain ⟨hT, hem, hact⟩ := hinv
  by_cases hA : st.in_action_phase
  · rw [scanText_inAction hA]
    intro _
    simpa using hprev hA
  · replace hA : st.in_action_phase = false := by simpa using hA
    obtain ⟨hbe, hfm⟩ := hact hA
    have hbe' : em.flatten ++ (st.buffer ++ c) = st.raw_content ++ c := by
      rw [← List.append_assoc, hbe]
    have he1 : em.flatten = (st.raw_content ++ c).take em.flatten.length := by
      rw [← hbe', List.take_left' rfl]
    have he2 : (st.raw_content ++ c).drop em.flatten.length = st.buffer ++ c := by
      rw [← hbe']
      exact List.drop_left _ _
    cases hfind : findMarker (st.buffer ++ c) with
    | some mc =>
      rw [scanText_found hA hfind]
      intro _
      have hcontains := (findMarker_some_elim hfind).2
      have hmcmem := (findMarker_some_elim hfind).1
      obtain ⟨hB1, hB2, hB3⟩ := takeBeforeFirst_spec hcontains
      set f := em.flatten.length with hfdef
      set i := (takeBeforeFirst mc (st.buffer ++ c)).length with hidef
      have hq0 : mc <+: (st.raw_content ++ c).drop (f + i) := by
        have hq : (st.buffer ++ c).drop i = (st.raw_content ++ c).drop (f + i) := by
          rw [← he2, List.drop_drop]
        rw [← hq]
        exact hB1
      have hq0T : mc <+: T.drop (f + i) := occ_extend hraw hq0
      have hq0fit : f + i + mc.length ≤ (st.raw_content ++ c).length := by
        have hl := hq0.length_le
        simp only [List.length_drop] at hl
        have hpos := marker_length_pos mc hmcmem
        omega
      have hps := hu.2.2 mc hmcmem (f + i) hq0T
      have hflat : (em ++ [takeBeforeFirst mc (st.buffer ++ c)]).flatten =
          em.flatten ++ takeBeforeFirst mc (st.buffer ++ c) := by simp
      rw [hflat]
      have hstep : em.flatten ++ takeBeforeFirst mc (st.buffer ++ c) =
          (st.raw_content ++ c).take (f + i) := by
        rw [List.take_add, ← he1, he2, ← hB3]
      rw [hstep, hps.2]
      have hple : pstar ≤ (st.raw_content ++ c).length := by
        rw [← hps.2]
        exact Nat.le_trans (Nat.le_add_right _ _) hq0fit
      have hTt : st.raw_content ++ c = T.take (st.raw_content ++ c).length :=
        List.prefix_iff_eq_take.mp hraw
      rw [hTt, List.take_take, Nat.min_eq_left hple]
    | none =>
      cases hpot : isPotentialMarker (st.buffer ++ c) with
      | true =>
        rw [scanText_withhold hA hfind hpot]
        intro h
        rw [hA] at h
        cases h
      | false =>
        rw [scanText_flush hA hfind hpot]
        intro h
        rw [hA] at h
        cases h

/-! ### Adapter-step shapes and run-level invariants -/

theorem openai_step_none (st : OState) {d : ODelta} (h : d.content = none) :
    (openai_step st d).1.scan = st.scan ∧ (openai_step st d).2 = [] := by
  simp [openai_step, h]

theorem openai_step_some (st : OState) {d : ODelta} {c : List Char}
    (h : d.content = some c) :
    (openai_step st d).1.scan = (scanText st.scan c d.time).1 ∧
    (openai_step st d).2 = (scanText st.scan c d.time).2 := by
  simp [openai_step, h]

/-- The raw content accumulated by the `openai_request` loop is the
concatenation of all text deltas, in arrival order. -/
theorem openai_run_from_raw :
    ∀ (ds : List ODelta) (st : OState),
      (openai_run_from st ds).1.scan.raw_content =
        st.scan.raw_content ++ (ds.filterMap ODelta.content).flatten := by
  intro ds
  induction ds with
  | nil => intro st; simp [openai_run_from]
  | cons d ds ih =>
    intro st
    rw [openai_run_from_cons]
    cases hdc : d.content with
    | none =>
      have hs := openai_step_none st hdc
      simp only [ih, hs.1, List.filterMap_cons, hdc]
    | some c =>
      have hs := openai_step_some st hdc
      rw [ih, hs.1]
      have hsc : (scanText st.scan c d.time).1.raw_content =
          st.scan.raw_content ++ c := by
        unfold scanText
        by_cases hA : st.scan.in_action_phase <;>
          cases hf : findMarker (st.scan.buffer ++ c) <;>
          simp [hA, hf] <;>
          cases hp : isPotentialMarker (st.scan.buffer ++ c) <;> simp [hp]
      rw [hsc, List.filterMap_cons, hdc]
      simp

theorem scanText_raw (st : ScanState) (c : List Char) (now : Nat) :
    (scanText st c now).1.raw_content = st.raw_content ++ c := by
  unfold scanText
  by_cases hA : st.in_action_phase <;>
    cases hf : findMarker (st.buffer ++ c) <;>
    simp [hA, hf] <;>
    cases hp : isPotentialMarker (st.buffer ++ c) <;> simp [hp]

theorem openai_run_from_inv (T : List Char) :
    ∀ (ds : List ODelta) (st : OState) (em : List (List Char)),
      ScanInv T st.scan em →
      st.scan.raw_content ++ (ds.filterMap ODelta.content).flatten <+: T →
      ScanInv T (openai_run_from st ds).1.scan
        (em ++ (openai_run_from st ds).2) := by
  intro ds
  induction ds with
  | nil =>
    intro st em hinv _
    simpa [openai_run_from] using hinv
  | cons d ds ih =>
    intro st em hinv hfit
    rw [openai_run_from_cons, ← List.append_assoc]
    cases hdc : d.content with
    | none =>
      have hs := openai_step_none st hdc
      refine ih _ _ ?_ ?_
      · rw [hs.1, hs.2, List.append_nil]
        exact hinv
      · rw [hs.1]
        simpa [List.filterMap_cons, hdc] using hfit
    | some c =>
      have hs := openai_step_some st hdc
      have hfit' : st.scan.raw_content ++ (c ++ (ds.filterMap ODelta.content).flatten) <+: T := by
        simpa [List.filterMap_cons, hdc] using hfit
      have hraw : st.scan.raw_content ++ c <+: T := by
        refine List.IsPrefix.trans ?_ hfit'
        rw [← List.append_assoc]
        exact List.prefix_append _ _
      refine ih _ _ ?_ ?_
      · rw [hs.1, hs.2]
        exact scanText_inv hinv hraw
      · rw [hs.1, scanText_raw]
        rw [List.append_assoc]
        exact hfit'

theorem openai_run_from_safe (T : List Char) (hnd : NoDoBeforeFinish T) :
    ∀ (ds : List ODelta) (st : OState) (em : List (List Char)),
      ScanInv T st.scan em →
      st.scan.raw_content ++ (ds.filterMap ODelta.content).flatten <+: T →
      EmitsSafe T em.flatten.length →
      EmitsSafe T (em ++ (openai_run_from st ds).2).flatten.length := by
  intro ds
  induction ds with
  | nil =>
    intro st em _ _ hsafe
    simpa [openai_run_from] using hsafe
  | cons d ds ih =>
    intro st em hinv hfit hsafe
    rw [openai_run_from_cons]
    have hgoal : em ++ ((openai_step st d).2 ++ (openai_run_from (openai_step st d).1 ds).2) =
        (em ++ (openai_step st d).2) ++ (openai_run_from (openai_step st d).1 ds).2 := by
      rw [List.append_assoc]
    rw [hgoal]
    cases hdc : d.content with
    | none =>
      have hs := openai_step_none st hdc
      refine ih _ _ ?_ ?_ ?_
      · rw [hs.1, hs.2, List.append_nil]
        exact hinv
      · rw [hs.1]
        simpa [List.filterMap_cons, hdc] using hfit
      · rw [hs.2, List.append_nil]
        exact hsafe
    | some c =>
      have hs := openai_step_some st hdc
      have hfit' : st.scan.raw_content ++ (c ++ (ds.filterMap ODelta.content).flatten) <+: T := by
        simpa [List.filterMap_cons, hdc] using hfit
      have hraw : st.scan.raw_content ++ c <+: T := by
        refine List.IsPrefix.trans ?_ hfit'
        rw [← List.append_assoc]
        exact List.prefix_append _ _
      refine ih _ _ ?_ ?_ ?_
      · rw [hs.1, hs.2]
        exact scanText_inv hinv hraw
      · rw [hs.1, scanText_raw]
        rw [List.append_assoc]
        exact hfit'
      · rw [hs.2]
        exact scanText_safe hnd hinv hraw hsafe

theorem openai_run_from_unique (T mU : List Char) (pstar : Nat)
    (hu : UniqueOcc T mU pstar) :
    ∀ (ds : List ODelta) (st : OState) (em : List (List Char)),
      ScanInv T st.scan em →
      st.scan.raw_content ++ (ds.filterMap ODelta.content).flatten <+: T →
      (st.scan.in_action_phase = true → em.flatten = T.take pstar) →
      ((openai_run_from st ds).1.scan.in_action_phase = true →
        (em ++ (openai_run_from st ds).2).flatten = T.take pstar) := by
  intro ds
  induction ds with
  | nil =>
    intro st em _ _ hprev
    simpa [openai_run_from] using hprev
  | cons d ds ih =>
    intro st em hinv hfit hprev
    rw [openai_run_from_cons]
    have hgoal : em ++ ((openai_step st d).2 ++ (openai_run_from (openai_step st d).1 ds).2) =
        (em ++ (openai_step st d).2) ++ (openai_run_from (openai_step st d).1 ds).2 := by
      rw [List.append_assoc]
    rw [hgoal]
    cases hdc : d.content with
    | none =>
      have hs := openai_step_none st hdc
      refine ih _ _ ?_ ?_ ?_
      · rw [hs.1, hs.2, List.append_nil]
        exact hinv
      · rw [hs.1]
        simpa [List.filterMap_cons, hdc] using hfit
      · rw [hs.1, hs.2, List.append_nil]
        exact hprev
    | some c =>
      have hs := openai_step_some st hdc
      have hfit' : st.scan.raw_content ++ (c ++ (ds.filterMap ODelta.content).flatten) <+: T := by
        simpa [List.filterMap_cons, hdc] using hfit
      have hraw : st.scan.raw_content ++ c <+: T := by
        refine List.IsPrefix.trans ?_ hfit'
        rw [← List.append_assoc]
        exact List.prefix_append _ _
      refine ih _ _ ?_ ?_ ?_
      · rw [hs.1, hs.2]
        exact scanText_inv hinv hraw
      · rw [hs.1, scanText_raw]
        rw [List.append_assoc]
        exact hfit'
      · rw [hs.1, hs.2]
        exact scanText_unique hu hinv hraw hprev

/-- After any scanner step that leaves the action phase off, the pending
buffer is either empty or was withheld as a potential marker suffix. -/
theorem scanText_bufpot {st : ScanState} {c : List Char} {now : Nat}
    (hprev : st.in_action_phase = false →
      st.buffer = [] ∨ isPotentialMarker st.buffer = true) :
    (scanText st c now).1.in_action_phase = false →
      ((scanText st c now).1.buffer = [] ∨
        isPotentialMarker (scanText st c now).1.buffer = true) := by
  by_cases hA : st.in_action_phase
  · rw [scanText_inAction hA]
    intro h
    simp only [hA] at h
    cases h
  · replace hA : st.in_action_phase = false := by simpa using hA
    cases hfind : findMarker (st.buffer ++ c) with
    | some m =>
      rw [scanText_found hA hfind]
      intro h
      cases h
    | none =>
      cases hpot : isPotentialMarker (st.buffer ++ c) with
      | true =>
        rw [scanText_withhold hA hfind hpot]
        intro _
        right
        exact hpot
      | false =>
        rw [scanText_flush hA hfind hpot]
        intro _
        left
        rfl

/-- Variant of `scanText_safe` that needs no hypothesis on the text: as
long as the scanner never enters the action phase, the emitted region stays
before every marker occurrence. -/
theorem scanText_safeNA {T : List Char} {st : ScanState} {em : List (List Char)}
    {c : List Char} {now : Nat}
    (hinv : ScanInv T st em) (hraw : st.raw_content ++ c <+: T)
    (hsafe : st.in_action_phase = false → EmitsSafe T em.flatten.length) :
    (scanText st c now).1.in_action_phase = false →
      EmitsSafe T (em ++ (scanText st c now).2).flatten.length := by
  obtain ⟨hT, hem, hact⟩ := hinv
  by_cases hA : st.in_action_phase
  · rw [scanText_inAction hA]
    intro h
    simp only [hA] at h
    cases h
  · replace hA : st.in_action_phase = false := by simpa using hA
    obtain ⟨hbe, hfm⟩ := hact hA
    have hbe' : em.flatten ++ (st.buffer ++ c) = st.raw_content ++ c := by
      rw [← List.append_assoc, hbe]
    have he2 : (st.raw_content ++ c).drop em.flatten.length = st.buffer ++ c := by
      rw [← hbe']
      exact List.drop_left _ _
    have hlen : em.flatten.length + (st.buffer ++ c).length =
        (st.raw_content ++ c).length := by
      have hl := congrArg List.length hbe'
      simpa using hl
    cases hfind : findMarker (st.buffer ++ c) with
    | some m =>
      rw [scanText_found hA hfind]
      intro h
      cases h
    | none =>
      cases hpot : isPotentialMarker (st.buffer ++ c) with
      | true =>
        rw [scanText_withhold hA hfind hpot]
        intro _
        simpa using hsafe hA
      | false =>
        rw [scanText_flush hA hfind hpot]
        intro _
        intro m hm p ho
        by_contra hcon
        push_neg at hcon
        set f := em.flatten.length with hfdef
        have hconp : p < f + (st.buffer ++ c).length := by
          simp only [List.flatten_append, List.flatten_cons, List.flatten_nil,
            List.length_append, List.append_nil] at hcon
          have hba : (st.buffer ++ c).length = st.buffer.length + c.length :=
            List.length_append _ _
          omega
        have hfp : f ≤ p := hsafe hA m hm p ho
        have hmm' : m = finishMarker ∨ m = doMarker := by
          simpa [actionMarkers] using hm
        by_cases hc1 : p + m.length ≤ (st.raw_content ++ c).length
        · have hop : m <+: (st.raw_content ++ c).drop p := occ_restrict hraw ho hc1
          have hob : m <+: (st.buffer ++ c).drop (p - f) := by
            have hq : (st.buffer ++ c).drop (p - f) = (st.raw_content ++ c).drop p := by
              rw [← he2, List.drop_drop]
              congr 1
              omega
            rw [hq]
            exact hop
          have hcs := containsSubstr_of_occ hob
          have hboth := findMarker_none_iff.mp hfind
          rcases hmm' with h | h <;> rw [h] at hcs
          · rw [hboth.1] at hcs
            cases hcs
          · rw [hboth.2] at hcs
            cases hcs
        · push_neg at hc1
          have hk1 : 0 < (st.raw_content ++ c).length - p := by omega
          have hk2 : (st.raw_content ++ c).length - p < m.length := by omega
          have hsuf : m.take ((st.raw_content ++ c).length - p) <:+
              T.take (st.raw_content ++ c).length :=
            partial_occ_suffix ho (by omega) (by omega)
          have hTeq : T.take (st.raw_content ++ c).length = st.raw_content ++ c :=
            (List.prefix_iff_eq_take.mp hraw).symm
          rw [hTeq] at hsuf
          have hlena : (m.take ((st.raw_content ++ c).length - p)).length =
              (st.raw_content ++ c).length - p := by
            simp only [List.length_take]
            omega
          have hsx : m.take ((st.raw_content ++ c).length - p) <:+
              em.flatten ++ (st.buffer ++ c) := by
            rw [hbe']
            exact hsuf
          have hsufb : m.take ((st.raw_content ++ c).length - p) <:+ st.buffer ++ c :=
            suffix_of_suffix_len hsx (by rw [hlena]; omega)
          have hpotTrue : isPotentialMarker (st.buffer ++ c) = true := by
            rw [isPotentialMarker_iff]
            exact ⟨m, hm, (st.raw_content ++ c).length - p, hk1, hk2, hsufb⟩
          rw [hpot] at hpotTrue
          cases hpotTrue

theorem openai_run_from_bufpot :
    ∀ (ds : List ODelta) (st : OState),
      (st.scan.in_action_phase = false →
        st.scan.buffer = [] ∨ isPotentialMarker st.scan.buffer = true) →
      ((openai_run_from st ds).1.scan.in_action_phase = false →
        (openai_run_from st ds).1.scan.buffer = [] ∨
          isPotentialMarker (openai_run_from st ds).1.scan.buffer = true) := by
  intro ds
  induction ds with
  | nil =>
    intro st hprev
    simpa [openai_run_from] using hprev
  | cons d ds ih =>
    intro st hprev
    rw [openai_run_from_cons]
    cases hdc : d.content with
    | none =>
      have hs := openai_step_none st hdc
      refine ih _ ?_
      rw [hs.1]
      exact hprev
    | some c =>
      have hs := openai_step_some st hdc
      refine ih _ ?_
      rw [hs.1]
      exact scanText_bufpot hprev

theorem openai_run_from_safeNA (T : List Char) :
    ∀ (ds : List ODelta) (st : OState) (em : List (List Char)),
      ScanInv T st.scan em →
      st.scan.raw_content ++ (ds.filterMap ODelta.content).flatten <+: T →
      (st.scan.in_action_phase = false → EmitsSafe T em.flatten.length) →
      ((openai_run_from st ds).1.scan.in_action_phase = false →
        EmitsSafe T (em ++ (openai_run_from st ds).2).flatten.length) := by
  intro ds
  induction ds with
  | nil =>
    intro st em _ _ hsafe
    intro hA
    simpa [openai_run_from] using hsafe (by simpa [openai_run_from] using hA)
  | cons d ds ih =>
    intro st em hinv hfit hsafe
    rw [openai_run_from_cons]
    intro hA
    have hgoal : em ++ ((openai_step st d).2 ++ (openai_run_from (openai_step st d).1 ds).2) =
        (em ++ (openai_step st d).2) ++ (openai_run_from (openai_step st d).1 ds).2 := by
      rw [List.append_assoc]
    rw [hgoal]
    cases hdc : d.content with
    | none =>
      have hs := openai_step_none st hdc
      refine ih _ _ ?_ ?_ ?_ ?_
      · rw [hs.1, hs.2, List.append_nil]
        exact hinv
      · rw [hs.1]
        simpa [List.filterMap_cons, hdc] using hfit
      · rw [hs.1, hs.2, List.append_nil]
        exact hsafe
      · exact hA
    | some c =>
      have hs := openai_step_some st hdc
      have hfit' : st.scan.raw_content ++ (c ++ (ds.filterMap ODelta.content).flatten) <+: T := by
        simpa [List.filterMap_cons, hdc] using hfit
      have hraw : st.scan.raw_content ++ c <+: T := by
        refine List.IsPrefix.trans ?_ hfit'
        rw [← List.append_assoc]
        exact List.prefix_append _ _
      refine ih _ _ ?_ ?_ ?_ ?_
      · rw [hs.1, hs.2]
        exact scanText_inv hinv hraw
      · rw [hs.1, scanText_raw]
        rw [List.append_assoc]
        exact hfit'
      · rw [hs.1, hs.2]
        exact scanText_safeNA hinv hraw hsafe
      · exact hA

theorem filterMap_content_map (frags : List (List Char)) :
    ((frags.map fun f => ODelta.mk none (some f) 0).filterMap ODelta.content) = frags := by
  induction frags with
  | nil => simp
  | cons f fs ih => simp [ih]

theorem flatten_take_isPref (frags : List (List Char)) (k : Nat) :
    (frags.take k).flatten <+: frags.flatten :=
  ⟨(frags.drop k).flatten, by rw [← List.flatten_append, List.take_append_drop]⟩

theorem noDoBeforeFinish_of_no_finish {T : List Char}
    (h : containsSubstr finishMarker T = false) : NoDoBeforeFinish T := by
  intro p q _ h2 _
  rw [containsSubstr_of_occ h2] at h
  cases h

theorem marker_no_ws : ∀ m ∈ actionMarkers, ∀ c ∈ m, c.isWhitespace = false := by
  decide

/-! ### Claim C2 -/

/-- C2, counterexample.  Feeding the single fragment `"abcd"` to the scanner
in its initial state: the buffer's suffix `"d"` is a strict non-empty prefix
of `"do(action="` and no full marker is present, yet the scanner emits
nothing (not `["abc"]`) and withholds the entire buffer `"abcd"` (not just
the suffix `"d"`), refuting the claim that everything before the suffix is
emitted in that step. -/
theorem c2_counterexample :
    findMarker "abcd".toList = none ∧
    isPotentialMarker "abcd".toList = true ∧
    (scanText initScan "abcd".toList 0).2 = [] ∧
    (scanText initScan "abcd".toList 0).1.buffer = "abcd".toList ∧
    ¬ ((scanText initScan "abcd".toList 0).2 = ["abc".toList] ∧
       (scanText initScan "abcd".toList 0).1.buffer = "d".toList) := by
  decide

/-- C2 (amended).  For every scan step outside the action phase in which no
full action marker is found in the pending buffer: when the buffer's suffix
equals some strict non-empty prefix of a marker, the scanner withholds the
ENTIRE buffer (the suffix together with everything before it) and emits
nothing in that step; when the suffix equals no such prefix, the entire
buffer is emitted as thinking text and the buffer becomes empty. -/
theorem c2_no_marker_step (st : ScanState) (c : List Char) (now : Nat)
    (hA : st.in_action_phase = false)
    (hf : findMarker (st.buffer ++ c) = none) :
    (isPotentialMarker (st.buffer ++ c) = true →
      (scanText st c now).2 = [] ∧
      (scanText st c now).1.buffer = st.buffer ++ c) ∧
    (isPotentialMarker (st.buffer ++ c) = false →
      (scanText st c now).2 = [st.buffer ++ c] ∧
      (scanText st c now).1.buffer = []) := by
  constructor
  · intro hp
    rw [scanText_withhold hA hf hp]
    exact ⟨rfl, rfl⟩
  · intro hp
    rw [scanText_flush hA hf hp]
    exact ⟨rfl, rfl⟩

/-- Witness for C2's amended theorem at the concrete input `"abcd"`. -/
theorem c2_no_marker_step_witness :
    (scanText initScan "abcd".toList 0).2 = [] ∧
    (scanText initScan "abcd".toList 0).1.buffer = initScan.buffer ++ "abcd".toList :=
  (c2_no_marker_step initScan "abcd".toList 0 (by decide) (by decide)).1 (by decide)

/-! ### Claim C3 -/

/-- C3, counterexample.  The stream consisting of the single delta
`"hello fin"` terminates while the scanner withholds the potential-marker
suffix (the whole buffer `"hello fin"`, which ends with the prefix `"fin"`
of the finish marker) and no full marker ever appeared; yet nothing is
emitted as thinking, and the final response built by `ModelClient.request`
has EMPTY thinking with the withheld text inside the ACTION — the withheld
text is not flushed as thinking at stream termination. -/
theorem c3_counterexample :
    (openai_run [⟨none, some "hello fin".toList, 0⟩]).2 = [] ∧
    (openai_run [⟨none, some "hello fin".toList, 0⟩]).1.scan.buffer =
      "hello fin".toList ∧
    (openai_run [⟨none, some "hello fin".toList, 0⟩]).1.scan.in_action_phase = false ∧
    isPotentialMarker "hello fin".toList = true ∧
    (client_request_openai [⟨none, some "hello fin".toList, 0⟩] 1).thinking = [] ∧
    (client_request_openai [⟨none, some "hello fin".toList, 0⟩] 1).action =
      "hello fin".toList := by
  decide

/-- C3 (amended).  If the stream ends while the scanner still withholds a
potential-marker suffix outside the action phase, then no full marker ever
appeared in the raw text, and the withheld text is NOT emitted as thinking:
the emitted chunks cover exactly the raw text minus the withheld buffer,
and (absent a legacy answer tag) the one-shot fallback parse assigns the
ENTIRE raw text — withheld suffix included — to the action with empty
thinking. -/
theorem c3_withheld_not_flushed (ds : List ODelta)
    (hA : (openai_run ds).1.scan.in_action_phase = false)
    (hB : (openai_run ds).1.scan.buffer ≠ []) :
    (openai_run ds).2.flatten ++ (openai_run ds).1.scan.buffer =
      (openai_run ds).1.scan.raw_content ∧
    isPotentialMarker (openai_run ds).1.scan.buffer = true ∧
    containsSubstr finishMarker (openai_run ds).1.scan.raw_content = false ∧
    containsSubstr doMarker (openai_run ds).1.scan.raw_content = false ∧
    (containsSubstr "<answer>".toList (openai_run ds).1.scan.raw_content = false →
      parse_response (openai_run ds).1.scan.raw_content =
        ([], (openai_run ds).1.scan.raw_content)) := by
  have hiz : (⟨initScan, none⟩ : OState).scan.raw_content = [] := rfl
  have hraw0 : (openai_run ds).1.scan.raw_content =
      (ds.filterMap ODelta.content).flatten := by
    rw [openai_run_eq, openai_run_from_raw]
    rfl
  have hfit : (⟨initScan, none⟩ : OState).scan.raw_content ++
      (ds.filterMap ODelta.content).flatten <+:
      (openai_run ds).1.scan.raw_content := by
    rw [hiz, List.nil_append, hraw0]
  have hinv : ScanInv (openai_run ds).1.scan.raw_content
      (openai_run ds).1.scan ([] ++ (openai_run ds).2) := by
    rw [openai_run_eq]
    exact openai_run_from_inv _ ds ⟨initScan, none⟩ [] (scanInv_init _) hfit
  have hsafe : EmitsSafe (openai_run ds).1.scan.raw_content
      ([] ++ (openai_run ds).2).flatten.length := by
    rw [openai_run_eq]
    refine openai_run_from_safeNA _ ds ⟨initScan, none⟩ [] (scanInv_init _) hfit ?_ ?_
    · intro _
      intro m hm p _
      exact Nat.zero_le p
    · rw [← openai_run_eq]
      exact hA
  have hpotb : (openai_run ds).1.scan.buffer = [] ∨
      isPotentialMarker (openai_run ds).1.scan.buffer = true := by
    rw [openai_run_eq]
    refine openai_run_from_bufpot ds ⟨initScan, none⟩ ?_ ?_
    · intro _
      left
      rfl
    · rw [← openai_run_eq]
      exact hA
  obtain ⟨hT, hem, hact⟩ := hinv
  obtain ⟨hbe, hfm⟩ := hact hA
  simp only [List.nil_append] at hbe hem hsafe
  have hpot : isPotentialMarker (openai_run ds).1.scan.buffer = true := by
    rcases hpotb with h | h
    · exact absurd h hB
    · exact h
  have hbdrop : (openai_run ds).1.scan.raw_content.drop
      (openai_run ds).2.flatten.length = (openai_run ds).1.scan.buffer := by
    rw [← hbe]
    exact List.drop_left _ _
  have hnomark : ∀ m ∈ actionMarkers,
      containsSubstr m (openai_run ds).1.scan.raw_content = false := by
    intro m hm
    by_contra hcs
    have hcs' : containsSubstr m (openai_run ds).1.scan.raw_content = true := by
      cases h : containsSubstr m (openai_run ds).1.scan.raw_content
      · exact absurd h hcs
      · rfl
    rcases containsSubstr_iff.mp hcs' with ⟨p, hp⟩
    have hfp : (openai_run ds).2.flatten.length ≤ p := hsafe m hm p hp
    have hob : m <+: (openai_run ds).1.scan.buffer.drop
        (p - (openai_run ds).2.flatten.length) := by
      rw [← hbdrop, List.drop_drop]
      have harith : (openai_run ds).2.flatten.length +
          (p - (openai_run ds).2.flatten.length) = p := by omega
      rw [harith]
      exact hp
    have hcb := containsSubstr_of_occ hob
    have hnone := findMarker_none_iff.mp hfm
    have hmm' : m = finishMarker ∨ m = doMarker := by
      simpa [actionMarkers] using hm
    rcases hmm' with h | h <;> rw [h] at hcb
    · rw [hnone.1] at hcb
      cases hcb
    · rw [hnone.2] at hcb
      cases hcb
  have hfinRaw := hnomark finishMarker (by simp [actionMarkers])
  have hdoRaw := hnomark doMarker (by simp [actionMarkers])
  refine ⟨hbe, hpot, hfinRaw, hdoRaw, ?_⟩
  intro hans
  have hstrip : ¬ pyStrip (openai_run ds).1.scan.raw_content = [] := by
    intro hnil
    rcases isPotentialMarker_iff.mp hpot with ⟨m, hm, i, hi1, hi2, hsuf⟩
    have htn : m.take i ≠ [] := by
      intro h
      have hl := congrArg List.length h
      simp only [List.length_take, List.length_nil] at hl
      have := marker_length_pos m hm
      omega
    obtain ⟨ch, hch⟩ := List.exists_mem_of_ne_nil (m.take i) htn
    have hchm : ch ∈ m := (List.take_sublist i m).subset hch
    have hchb : ch ∈ (openai_run ds).1.scan.buffer := hsuf.sublist.subset hch
    have hchr : ch ∈ (openai_run ds).1.scan.raw_content := by
      rw [← hbe]
      exact List.mem_append_right _ hchb
    have hws := pyStrip_eq_nil_iff.mp hnil ch hchr
    rw [marker_no_ws m hm ch hchm] at hws
    cases hws
  rw [parse_response]
  rw [if_neg hstrip]
  rw [if_neg (by rw [hfinRaw]; simp)]
  rw [if_neg (by rw [hdoRaw]; simp)]
  rw [if_neg (by rw [hans]; simp)]

/-- Witness for C3's amended theorem at the concrete stream `["hello fin"]`. -/
theorem c3_withheld_not_flushed_witness :
    (openai_run [⟨none, some "hello fin".toList, 0⟩]).2.flatten ++
      (openai_run [⟨none, some "hello fin".toList, 0⟩]).1.scan.buffer =
      (openai_run [⟨none, some "hello fin".toList, 0⟩]).1.scan.raw_content ∧
    isPotentialMarker (openai_run [⟨none, some "hello fin".toList, 0⟩]).1.scan.buffer = true :=
  have h := c3_withheld_not_flushed [⟨none, some "hello fin".toList, 0⟩]
    (by decide) (by decide)
  ⟨h.1, h.2.1⟩

/-! ### Claim C1 -/

/-- C1, counterexample.  For the single-fragment stream
`"do(action=x finish(message="` the full text contains a do-marker
occurrence starting at position 0, yet — because both handlers check the
finish marker first — the scanner emits `"do(action=x "` as thinking text,
a string containing that full marker occurrence.  This refutes the claim
that no string containing a non-empty prefix of a marker that is part of a
marker occurrence is ever emitted as thinking. -/
theorem c1_counterexample :
    doMarker.isPrefixOf "do(action=x finish(message=".toList = true ∧
    (openai_run [⟨none, some "do(action=x finish(message=".toList, 0⟩]).2 =
      ["do(action=x ".toList] ∧
    containsSubstr doMarker "do(action=x ".toList = true := by
  decide

/-- C1 (amended).  Provided the stream's full text contains no do-marker
occurrence strictly before a finish-marker occurrence, then after any
number of fragments the concatenation of all thinking chunks emitted by the
scanner is a prefix of the full text that ends at or before every marker
occurrence — so no emitted thinking ever contains any part of a marker
occurrence.  In particular, for the fragments `"abcdo(acti"` then `"on="`,
the scanner emits exactly `"abc"` as thinking (never `"do(acti"`), and the
state is in the action phase after the second fragment. -/
theorem c1_no_partial_marker_leak :
    (∀ (frags : List (List Char)) (k : Nat),
      NoDoBeforeFinish frags.flatten →
      (openai_run ((frags.take k).map fun f => ODelta.mk none (some f) 0)).2.flatten <+:
        frags.flatten ∧
      (∀ m ∈ actionMarkers, ∀ p : Nat, m <+: frags.flatten.drop p →
        (openai_run ((frags.take k).map fun f => ODelta.mk none (some f) 0)).2.flatten.length ≤ p)) ∧
    ((openai_run (["abcdo(acti".toList, "on=".toList].map fun f =>
        ODelta.mk none (some f) 0)).2 = ["abc".toList] ∧
     (openai_run (["abcdo(acti".toList, "on=".toList].map fun f =>
        ODelta.mk none (some f) 0)).1.scan.in_action_phase = true) := by
  constructor
  · intro frags k hnd
    have hiz : (⟨initScan, none⟩ : OState).scan.raw_content = [] := rfl
    have hfm : (((frags.take k).map fun f => ODelta.mk none (some f) 0).filterMap
        ODelta.content) = frags.take k := filterMap_content_map _
    have hfit : (⟨initScan, none⟩ : OState).scan.raw_content ++
        ((((frags.take k).map fun f => ODelta.mk none (some f) 0).filterMap
          ODelta.content).flatten) <+: frags.flatten := by
      rw [hiz, List.nil_append, hfm]
      exact flatten_take_isPref frags k
    have hinv := openai_run_from_inv frags.flatten
      ((frags.take k).map fun f => ODelta.mk none (some f) 0)
      ⟨initScan, none⟩ [] (scanInv_init _) hfit
    have hsafe := openai_run_from_safe frags.flatten hnd
      ((frags.take k).map fun f => ODelta.mk none (some f) 0)
      ⟨initScan, none⟩ [] (scanInv_init _) hfit
      (by intro m _ p _; exact Nat.zero_le p)
    simp only [List.nil_append] at hinv hsafe
    obtain ⟨hT, hem, _⟩ := hinv
    constructor
    · rw [openai_run_eq, hem]
      exact (List.take_prefix _ _).trans hT
    · intro m hm p ho
      rw [openai_run_eq]
      exact hsafe m hm p ho
  · constructor
    · decide
    · decide

/-- Witness for C1's amended theorem: the two-fragment scenario
`"abcdo(acti"` / `"on="`, whose full text `"abcdo(action="` contains no
finish marker, with the do-marker occurrence at position 3. -/
theorem c1_no_partial_marker_leak_witness :
    (openai_run ((["abcdo(acti".toList, "on=".toList].take 2).map fun f =>
      ODelta.mk none (some f) 0)).2.flatten <+:
      ["abcdo(acti".toList, "on=".toList].flatten ∧
    (openai_run ((["abcdo(acti".toList, "on=".toList].take 2).map fun f =>
      ODelta.mk none (some f) 0)).2.flatten.length ≤ 3 :=
  have h := c1_no_partial_marker_leak.1 ["abcdo(acti".toList, "on=".toList] 2
    (noDoBeforeFinish_of_no_finish (by decide))
  ⟨h.1, h.2 doMarker (by decide) 3 (isPrefB_iff.mp (by decide))⟩

/-! ### Claim C4 -/

/-- C4.  For every raw text `pre ++ m ++ post` containing exactly one
action-marker occurrence (`m` at position `pre.length` and no other
occurrence of either marker), and every way of cutting the text into
fragments — including cuts inside the marker literal — feeding the
fragments to the incremental scanner emits exactly `pre` as the thinking
text and flips to the action phase, and the one-shot fallback parser
`_parse_response` splits the same text at the same point, returning the
same thinking (whitespace-stripped) and the same action text from the
marker onward (close-tag-cleaned and stripped).  The incremental and
one-shot splits therefore agree. -/
theorem c4_incremental_matches_oneshot
    (m pre post : List Char) (frags : List (List Char))
    (hm : m ∈ actionMarkers)
    (hfl : frags.flatten = pre ++ m ++ post)
    (huniq : ∀ m2 ∈ actionMarkers, ∀ p < (pre ++ m ++ post).length,
      m2.isPrefixOf ((pre ++ m ++ post).drop p) = true → m2 = m ∧ p = pre.length) :
    (openai_run (frags.map fun f => ODelta.mk none (some f) 0)).2.flatten = pre ∧
    (openai_run (frags.map fun f => ODelta.mk none (some f) 0)).1.scan.in_action_phase = true ∧
    parse_response (pre ++ m ++ post) =
      (pyStrip pre, pyStrip (removeAll "</answer>".toList (m ++ post))) := by
  have hdropT : (pre ++ m ++ post).drop pre.length = m ++ post := by
    rw [List.append_assoc]
    exact List.drop_left _ _
  have hocc : m <+: (pre ++ m ++ post).drop pre.length := by
    rw [hdropT]
    exact List.prefix_append _ _
  have hU : ∀ m2 ∈ actionMarkers, ∀ p : Nat,
      m2 <+: (pre ++ m ++ post).drop p → m2 = m ∧ p = pre.length := by
    intro m2 hm2 p hp
    have hlen2 := marker_length_pos m2 hm2
    have hple : p < (pre ++ m ++ post).length := by
      have hl := hp.length_le
      simp only [List.length_drop] at hl
      omega
    exact huniq m2 hm2 p hple (isPrefB_iff.mpr hp)
  have hUO : UniqueOcc (pre ++ m ++ post) m pre.length := ⟨hm, hocc, hU⟩
  have hnd := uniqueOcc_noDoBeforeFinish hUO
  have hiz : (⟨initScan, none⟩ : OState).scan.raw_content = [] := rfl
  have hfm : ((frags.map fun f => ODelta.mk none (some f) 0).filterMap
      ODelta.content) = frags := filterMap_content_map _
  have hfit : (⟨initScan, none⟩ : OState).scan.raw_content ++
      (((frags.map fun f => ODelta.mk none (some f) 0).filterMap
        ODelta.content).flatten) <+: pre ++ m ++ post := by
    rw [hiz, List.nil_append, hfm, hfl]
  have hinv := openai_run_from_inv (pre ++ m ++ post)
    (frags.map fun f => ODelta.mk none (some f) 0)
    ⟨initScan, none⟩ [] (scanInv_init _) hfit
  have hsafe := openai_run_from_safe (pre ++ m ++ post) hnd
    (frags.map fun f => ODelta.mk none (some f) 0)
    ⟨initScan, none⟩ [] (scanInv_init _) hfit
    (by intro m2 _ p _; exact Nat.zero_le p)
  simp only [List.nil_append] at hinv hsafe
  have hraw : (openai_run (frags.map fun f => ODelta.mk none (some f) 0)).1.scan.raw_content =
      pre ++ m ++ post := by
    rw [openai_run_eq, openai_run_from_raw, hfm, hfl]
    rfl
  obtain ⟨hT, hem, hact⟩ := hinv
  have hAct : (openai_run (frags.map fun f => ODelta.mk none (some f) 0)).1.scan.in_action_phase = true := by
    by_contra hA
    replace hA : (openai_run (frags.map fun f => ODelta.mk none (some f) 0)).1.scan.in_action_phase = false := by
      cases h : (openai_run (frags.map fun f => ODelta.mk none (some f) 0)).1.scan.in_action_phase
      · rfl
      · rw [openai_run_eq] at h
        exact absurd h hA
    rw [← openai_run_eq] at hact hem hT
    obtain ⟨hbe, hfmk⟩ := hact hA
    have hfple : (openai_run (frags.map fun f => ODelta.mk none (some f) 0)).2.flatten.length ≤
        pre.length := by
      rw [openai_run_eq]
      exact hsafe m hm pre.length hocc
    have hbdrop : (openai_run (frags.map fun f => ODelta.mk none (some f) 0)).1.scan.raw_content.drop
        (openai_run (frags.map fun f => ODelta.mk none (some f) 0)).2.flatten.length =
        (openai_run (frags.map fun f => ODelta.mk none (some f) 0)).1.scan.buffer := by
      rw [← hbe]
      exact List.drop_left _ _
    have hob : m <+: (openai_run (frags.map fun f => ODelta.mk none (some f) 0)).1.scan.buffer.drop
        (pre.length - (openai_run (frags.map fun f => ODelta.mk none (some f) 0)).2.flatten.length) := by
      rw [← hbdrop, List.drop_drop]
      have harith : (openai_run (frags.map fun f => ODelta.mk none (some f) 0)).2.flatten.length +
          (pre.length - (openai_run (frags.map fun f => ODelta.mk none (some f) 0)).2.flatten.length) =
          pre.length := by omega
      rw [harith, hraw]
      exact hocc
    have hcb := containsSubstr_of_occ hob
    have hnone := findMarker_none_iff.mp hfmk
    have hmm' : m = finishMarker ∨ m = doMarker := by
      simpa [actionMarkers] using hm
    rcases hmm' with h | h <;> rw [h] at hcb
    · rw [hnone.1] at hcb
      cases hcb
    · rw [hnone.2] at hcb
      cases hcb
  have hpre : (openai_run (frags.map fun f => ODelta.mk none (some f) 0)).2.flatten = pre := by
    have hun := openai_run_from_unique (pre ++ m ++ post) m pre.length hUO
      (frags.map fun f => ODelta.mk none (some f) 0)
      ⟨initScan, none⟩ [] (scanInv_init _) hfit
      (by intro h; simp [initScan] at h)
    rw [← openai_run_eq] at hun
    have hpl := hun hAct
    simp only [List.nil_append] at hpl
    rw [hpl, List.append_assoc, List.take_left]
  refine ⟨hpre, hAct, ?_⟩
  have hTne : m ≠ [] := List.length_pos.mp (marker_length_pos m hm)
  obtain ⟨ch, hch⟩ := List.exists_mem_of_ne_nil m hTne
  have hchT : ch ∈ pre ++ m ++ post := by
    have h1 : ch ∈ (pre ++ m ++ post).drop pre.length := hocc.sublist.subset hch
    exact (List.drop_sublist _ _).subset h1
  have hstrip : ¬ pyStrip (pre ++ m ++ post) = [] := by
    intro hnil
    have hws := pyStrip_eq_nil_iff.mp hnil ch hchT
    rw [marker_no_ws m hm ch hch] at hws
    cases hws
  have hsplit : takeBeforeFirst m (pre ++ m ++ post) = pre ∧
      dropFromFirst m (pre ++ m ++ post) = m ++ post := by
    have hcs : containsSubstr m (pre ++ m ++ post) = true :=
      containsSubstr_of_occ hocc
    obtain ⟨hB1, hB2, hB3⟩ := takeBeforeFirst_spec hcs
    have hBl := (hU m hm _ hB1).2
    have hBpre : takeBeforeFirst m (pre ++ m ++ post) = pre := by
      rw [hB3, hBl, List.append_assoc, List.take_left]
    refine ⟨hBpre, ?_⟩
    have happ := takeBeforeFirst_append_dropFromFirst m (pre ++ m ++ post)
    rw [hBpre] at happ
    nth_rewrite 2 [List.append_assoc] at happ
    exact List.append_cancel_left happ
  have hmm' : m = finishMarker ∨ m = doMarker := by
    simpa [actionMarkers] using hm
  rcases hmm' with h | h
  · subst h
    have hcf : containsSubstr finishMarker (pre ++ finishMarker ++ post) = true :=
      containsSubstr_of_occ hocc
    rw [parse_response, if_neg hstrip, if_pos hcf, hsplit.1, hsplit.2]
  · subst h
    have hnf : containsSubstr finishMarker (pre ++ doMarker ++ post) = false := by
      by_contra hcf
      have hcf' : containsSubstr finishMarker (pre ++ doMarker ++ post) = true := by
        cases hx : containsSubstr finishMarker (pre ++ doMarker ++ post)
        · exact absurd hx hcf
        · rfl
      rcases containsSubstr_iff.mp hcf' with ⟨p, hp⟩
      have := (hU finishMarker (by simp [actionMarkers]) p hp).1
      exact finishMarker_ne_doMarker this
    have hcd : containsSubstr doMarker (pre ++ doMarker ++ post) = true :=
      containsSubstr_of_occ hocc
    rw [parse_response, if_neg hstrip, if_neg (by rw [hnf]; simp), if_pos hcd,
      hsplit.1, hsplit.2]

/-- Witness for C4: the text `"abcdo(action=xyz)"` with its unique do-marker
occurrence at position 3, cut into the fragments `"abcdo(ac"` and
`"tion=xyz)"` — a cut inside the marker literal. -/
theorem c4_incremental_matches_oneshot_witness :
    (openai_run (["abcdo(ac".toList, "tion=xyz)".toList].map fun f =>
      ODelta.mk none (some f) 0)).2.flatten = "abc".toList ∧
    parse_response ("abc".toList ++ doMarker ++ "xyz)".toList) =
      (pyStrip "abc".toList,
       pyStrip (removeAll "</answer>".toList (doMarker ++ "xyz)".toList))) :=
  have h := c4_incremental_matches_oneshot doMarker "abc".toList "xyz)".toList
    ["abcdo(ac".toList, "tion=xyz)".toList] (by decide) (by decide) (by decide)
  ⟨h.1, h.2.2⟩

/-! ### Timestamp invariants -/

/-- Consistency of the two timestamp fields with their guard flags:
`first_token_received` tracks whether the first-token time is set, and the
thinking-end time is set exactly when the scanner is in the action phase. -/
def TsInv (s : ScanState) : Prop :=
  s.first_token_received = s.time_to_first_token.isSome ∧
  s.time_to_thinking_end.isSome = s.in_action_phase

theorem scanText_ts (st : ScanState) (c : List Char) (now : Nat)
    (h : TsInv st) :
    TsInv (scanText st c now).1 ∧
    (∀ v, st.time_to_first_token = some v →
      (scanText st c now).1.time_to_first_token = some v) ∧
    (∀ v, st.time_to_thinking_end = some v →
      (scanText st c now).1.time_to_thinking_end = some v) := by
  obtain ⟨h1, h2⟩ := h
  by_cases hA : st.in_action_phase
  · rw [scanText_inAction hA]
    refine ⟨⟨?_, ?_⟩, ?_, ?_⟩
    · cases hf : st.first_token_received
      · simp [hf]
      · rw [hf] at h1
        simp [hf, ← h1]
    · simpa [hA] using h2
    · intro v hv
      have hft : st.first_token_received = true := by
        rw [h1, hv]
        rfl
      simp [hft, hv]
    · intro v hv
      simpa using hv
  · replace hA : st.in_action_phase = false := by simpa using hA
    cases hfind : findMarker (st.buffer ++ c) with
    | some m =>
      rw [scanText_found hA hfind]
      refine ⟨⟨?_, ?_⟩, ?_, ?_⟩
      · cases hf : st.first_token_received
        · simp [hf]
        · rw [hf] at h1
          simp [hf, ← h1]
      · cases ht : st.time_to_thinking_end
        · simp [ht]
        · simp [ht]
      · intro v hv
        have hft : st.first_token_received = true := by
          rw [h1, hv]
          rfl
        simp [hft, hv]
      · intro v hv
        simp [hv]
    | none =>
      cases hpot : isPotentialMarker (st.buffer ++ c) with
      | true =>
        rw [scanText_withhold hA hfind hpot]
        refine ⟨⟨?_, ?_⟩, ?_, ?_⟩
        · cases hf : st.first_token_received
          · simp [hf]
          · rw [hf] at h1
            simp [hf, ← h1]
        · simpa [hA] using h2
        · intro v hv
          have hft : st.first_token_received = true := by
            rw [h1, hv]
            rfl
          simp [hft, hv]
        · intro v hv
          simpa using hv
      | false =>
        rw [scanText_flush hA hfind hpot]
        refine ⟨⟨?_, ?_⟩, ?_, ?_⟩
        · cases hf : st.first_token_received
          · simp [hf]
          · rw [hf] at h1
            simp [hf, ← h1]
        · simpa [hA] using h2
        · intro v hv
          have hft : st.first_token_received = true := by
            rw [h1, hv]
            rfl
          simp [hft, hv]
        · intro v hv
          simpa using hv

theorem scanText_vals (st : ScanState) (c : List Char) (now : Nat) :
    ((scanText st c now).1.time_to_first_token = st.time_to_first_token ∨
     (scanText st c now).1.time_to_first_token = some now) ∧
    ((scanText st c now).1.time_to_thinking_end = st.time_to_thinking_end ∨
     (scanText st c now).1.time_to_thinking_end = some now) := by
  by_cases hA : st.in_action_phase
  · rw [scanText_inAction hA]
    constructor
    · cases hf : st.first_token_received <;> simp [hf]
    · left
      rfl
  · replace hA : st.in_action_phase = false := by simpa using hA
    cases hfind : findMarker (st.buffer ++ c) with
    | some m =>
      rw [scanText_found hA hfind]
      constructor
      · cases hf : st.first_token_received <;> simp [hf]
      · cases ht : st.time_to_thinking_end <;> simp [ht]
    | none =>
      cases hpot : isPotentialMarker (st.buffer ++ c) with
      | true =>
        rw [scanText_withhold hA hfind hpot]
        constructor
        · cases hf : st.first_token_received <;> simp [hf]
        · left
          rfl
      | false =>
        rw [scanText_flush hA hfind hpot]
        constructor
        · cases hf : st.first_token_received <;> simp [hf]
        · left
          rfl

theorem scanText_sets_first {st : ScanState} {c : List Char} {now : Nat} :
    (scanText st c now).1.first_token_received = true := by
  by_cases hA : st.in_action_phase
  · rw [scanText_inAction hA]
  · replace hA : st.in_action_phase = false := by simpa using hA
    cases hfind : findMarker (st.buffer ++ c) with
    | some m => rw [scanText_found hA hfind]
    | none =>
      cases hpot : isPotentialMarker (st.buffer ++ c) with
      | true => rw [scanText_withhold hA hfind hpot]
      | false => rw [scanText_flush hA hfind hpot]

theorem scanText_first_val {st : ScanState} {c : List Char} {now : Nat}
    (h : st.first_token_received = false) :
    (scanText st c now).1.time_to_first_token = some now := by
  by_cases hA : st.in_action_phase
  · rw [scanText_inAction hA]
    simp [h]
  · replace hA : st.in_action_phase = false := by simpa using hA
    cases hfind : findMarker (st.buffer ++ c) with
    | some m =>
      rw [scanText_found hA hfind]
      simp [h]
    | none =>
      cases hpot : isPotentialMarker (st.buffer ++ c) with
      | true =>
        rw [scanText_withhold hA hfind hpot]
        simp [h]
      | false =>
        rw [scanText_flush hA hfind hpot]
        simp [h]

theorem scanText_c5 {st : ScanState} {c : List Char} {now : Nat}
    (h1 : TsInv st)
    (h4 : ∀ u, st.time_to_thinking_end = some u →
      ∃ t, st.time_to_first_token = some t ∧ t ≤ u)
    (h2 : ∀ v, st.time_to_first_token = some v → v ≤ now) :
    ∀ u, (scanText st c now).1.time_to_thinking_end = some u →
      ∃ t, (scanText st c now).1.time_to_first_token = some t ∧ t ≤ u := by
  intro u hu
  rcases (scanText_vals st c now).2 with he | he
  · rw [he] at hu
    obtain ⟨t, ht, htu⟩ := h4 u hu
    exact ⟨t, (scanText_ts st c now h1).2.1 t ht, htu⟩
  · rw [he] at hu
    injection hu with hu
    cases hf : st.first_token_received
    · refine ⟨now, scanText_first_val hf, by omega⟩
    · have hsome : st.time_to_first_token.isSome = true := by
        rw [← h1.1, hf]
      rcases ho : st.time_to_first_token with _ | t
      · rw [ho] at hsome
        cases hsome
      · exact ⟨t, (scanText_ts st c now h1).2.1 t ho, by
          have := h2 t ho
          omega⟩

/-- A part carries a token for the scanner: a truthy thought or a present
text field (even empty text marks the first token in the source). -/
def gtoken (p : GPart) : Bool :=
  !(p.thought.getD []).isEmpty || p.text.isSome

theorem gemini_step_eq (st : GState) (p : GPart) :
    gemini_step st p =
      ((gemini_text_step
          (gemini_fc_step (gemini_thought_step (gemini_sig_step st p) p).1 p) p).1,
       (gemini_thought_step (gemini_sig_step st p) p).2 ++
       (gemini_text_step
          (gemini_fc_step (gemini_thought_step (gemini_sig_step st p) p).1 p) p).2) :=
  rfl

theorem gemini_sig_step_scan (st : GState) (p : GPart) :
    (gemini_sig_step st p).scan = st.scan ∧
    (gemini_sig_step st p).structured_action = st.structured_action ∧
    (gemini_sig_step st p).tool_call_id = st.tool_call_id := by
  unfold gemini_sig_step
  cases p.thoughtSignature with
  | none => exact ⟨rfl, rfl, rfl⟩
  | some s =>
    by_cases hs : s ≠ [] <;> simp [hs]

theorem gemini_thought_step_cases (st : GState) (p : GPart) :
    (p.thought.getD [] = [] ∧ gemini_thought_step st p = (st, [])) ∨
    (∃ t, p.thought = some t ∧ t ≠ [] ∧
      gemini_thought_step st p =
        ({ st with scan := (scanText st.scan t p.time).1 },
         (scanText st.scan t p.time).2)) := by
  unfold gemini_thought_step
  cases ht : p.thought with
  | none => exact Or.inl ⟨rfl, rfl⟩
  | some t =>
    by_cases hne : t ≠ []
    · exact Or.inr ⟨t, rfl, hne, by simp [hne]⟩
    · push_neg at hne
      subst hne
      exact Or.inl ⟨rfl, by simp⟩

theorem gemini_fc_step_none (st : GState) (p : GPart)
    (h : p.functionCall = none) : gemini_fc_step st p = st := by
  unfold gemini_fc_step
  rw [h]

theorem gemini_fc_step_some (st : GState) (p : GPart) (fc : FunctionCall)
    (h : p.functionCall = some fc) :
    (gemini_fc_step st p).scan.in_action_phase = true ∧
    (gemini_fc_step st p).structured_action =
      some (map_gemini_to_internal fc.name fc.args) ∧
    (gemini_fc_step st p).tool_call_id = fc.id ∧
    (gemini_fc_step st p).scan.raw_content = st.scan.raw_content ∧
    (gemini_fc_step st p).scan.first_token_received = st.scan.first_token_received ∧
    (gemini_fc_step st p).scan.time_to_first_token = st.scan.time_to_first_token ∧
    ((gemini_fc_step st p).scan.time_to_thinking_end = st.scan.time_to_thinking_end ∨
     (gemini_fc_step st p).scan.time_to_thinking_end = some p.time) := by
  have hstep : gemini_fc_step st p = gemini_fc_apply st fc p.time := by
    unfold gemini_fc_step
    rw [h]
  rw [hstep]
  unfold gemini_fc_apply
  by_cases hA : st.scan.in_action_phase
  · rw [if_neg (by simp [hA])]
    exact ⟨hA, rfl, rfl, rfl, rfl, rfl, Or.inl rfl⟩
  · replace hA : st.scan.in_action_phase = false := by simpa using hA
    rw [if_pos (by simp [hA])]
    refine ⟨rfl, rfl, rfl, rfl, rfl, rfl, ?_⟩
    cases ht : st.scan.time_to_thinking_end with
    | none =>
      right
      simp [ht]
    | some u =>
      left
      simp [ht]

theorem gemini_text_step_cases (st : GState) (p : GPart) :
    (p.text = none ∧ gemini_text_step st p = (st, [])) ∨
    (∃ t, p.text = some t ∧
      gemini_text_step st p =
        ({ st with scan := (scanText st.scan t p.time).1 },
         (scanText st.scan t p.time).2)) := by
  unfold gemini_text_step
  cases ht : p.text with
  | none => exact Or.inl ⟨rfl, rfl⟩
  | some t => exact Or.inr ⟨t, rfl, rfl⟩

theorem gemini_fc_step_ts (s : GState) (p : GPart) (h : TsInv s.scan) :
    TsInv (gemini_fc_step s p).scan ∧
    (∀ v, s.scan.time_to_thinking_end = some v →
      (gemini_fc_step s p).scan.time_to_thinking_end = some v) ∧
    ((gemini_fc_step s p).scan.time_to_thinking_end = s.scan.time_to_thinking_end ∨
      (gemini_fc_step s p).scan.time_to_thinking_end = some p.time) ∧
    (gemini_fc_step s p).scan.time_to_first_token = s.scan.time_to_first_token ∧
    (gemini_fc_step s p).scan.first_token_received = s.scan.first_token_received := by
  cases hfc : p.functionCall with
  | none =>
    rw [gemini_fc_step_none s p hfc]
    exact ⟨h, fun v hv => hv, Or.inl rfl, rfl, rfl⟩
  | some fc =>
    have hstep : gemini_fc_step s p = gemini_fc_apply s fc p.time := by
      unfold gemini_fc_step
      rw [hfc]
    rw [hstep]
    unfold gemini_fc_apply
    by_cases hA : s.scan.in_action_phase
    · rw [if_neg (by simp [hA])]
      exact ⟨h, fun v hv => hv, Or.inl rfl, rfl, rfl⟩
    · replace hA : s.scan.in_action_phase = false := by simpa using hA
      have hnone : s.scan.time_to_thinking_end = none := by
        have hi := h.2
        rw [hA] at hi
        cases ht : s.scan.time_to_thinking_end
        · rfl
        · rw [ht] at hi
          exact Bool.noConfusion hi
      rw [if_pos (by simp [hA])]
      refine ⟨⟨by exact h.1, by simp [hnone]⟩, ?_, ?_, rfl, rfl⟩
      · intro v hv
        rw [hnone] at hv
        exact Option.noConfusion hv
      · right
        simp [hnone]

theorem gemini_fc_step_c5 (st : GState) (p : GPart)
    (h1 : TsInv st.scan)
    (h4 : ∀ u, st.scan.time_to_thinking_end = some u →
      ∃ t, st.scan.time_to_first_token = some t ∧ t ≤ u)
    (h2 : ∀ v, st.scan.time_to_first_token = some v → v ≤ p.time)
    (hft : st.scan.first_token_received = true) :
    TsInv (gemini_fc_step st p).scan ∧
    (∀ u, (gemini_fc_step st p).scan.time_to_thinking_end = some u →
      ∃ t, (gemini_fc_step st p).scan.time_to_first_token = some t ∧ t ≤ u) := by
  obtain ⟨hts, hpers, htte, hfv, hfr⟩ := gemini_fc_step_ts st p h1
  refine ⟨hts, ?_⟩
  intro u hu
  rcases htte with he | he
  · rw [he] at hu
    obtain ⟨t, ht, htu⟩ := h4 u hu
    rw [hfv]
    exact ⟨t, ht, htu⟩
  · rw [he] at hu
    injection hu with hu
    have hsome : st.scan.time_to_first_token.isSome = true := by
      rw [← h1.1, hft]
    rcases ho : st.scan.time_to_first_token with _ | t
    · rw [ho] at hsome
      exact Bool.noConfusion hsome
    · rw [hfv, ho]
      refine ⟨t, rfl, ?_⟩
      have := h2 t ho
      omega

/-- Structural facts about a whole gemini part step: timestamp-flag
consistency is preserved, each timestamp keeps its value once set, any new
timestamp value is the part's clock reading, and the first-token flag never
reverts. -/
theorem gemini_part_basic (st : GState) (p : GPart) (h1 : TsInv st.scan) :
    TsInv (gemini_step st p).1.scan ∧
    (∀ v, st.scan.time_to_first_token = some v →
      (gemini_step st p).1.scan.time_to_first_token = some v) ∧
    (∀ v, st.scan.time_to_thinking_end = some v →
      (gemini_step st p).1.scan.time_to_thinking_end = some v) ∧
    (∀ v, (gemini_step st p).1.scan.time_to_first_token = some v →
      st.scan.time_to_first_token = some v ∨ v = p.time) ∧
    (∀ v, (gemini_step st p).1.scan.time_to_thinking_end = some v →
      st.scan.time_to_thinking_end = some v ∨ v = p.time) ∧
    (st.scan.first_token_received = true →
      (gemini_step st p).1.scan.first_token_received = true) := by
  rw [gemini_step_eq]
  have hsig := (gemini_sig_step_scan st p).1
  -- facts after the thought step
  have hB : TsInv (gemini_thought_step (gemini_sig_step st p) p).1.scan ∧
      (∀ v, st.scan.time_to_first_token = some v →
        (gemini_thought_step (gemini_sig_step st p) p).1.scan.time_to_first_token = some v) ∧
      (∀ v, st.scan.time_to_thinking_end = some v →
        (gemini_thought_step (gemini_sig_step st p) p).1.scan.time_to_thinking_end = some v) ∧
      (∀ v, (gemini_thought_step (gemini_sig_step st p) p).1.scan.time_to_first_token = some v →
        st.scan.time_to_first_token = some v ∨ v = p.time) ∧
      (∀ v, (gemini_thought_step (gemini_sig_step st p) p).1.scan.time_to_thinking_end = some v →
        st.scan.time_to_thinking_end = some v ∨ v = p.time) ∧
      (st.scan.first_token_received = true →
        (gemini_thought_step (gemini_sig_step st p) p).1.scan.first_token_received = true) := by
    rcases gemini_thought_step_cases (gemini_sig_step st p) p with
      ⟨_, hth⟩ | ⟨t, _, _, hth⟩
    · rw [hth]
      simp only [hsig]
      exact ⟨h1, fun v hv => hv, fun v hv => hv,
        fun v hv => Or.inl hv, fun v hv => Or.inl hv, fun h => h⟩
    · rw [hth]
      simp only [hsig]
      have hts := scanText_ts st.scan t p.time h1
      have hvals := scanText_vals st.scan t p.time
      refine ⟨hts.1, hts.2.1, hts.2.2, ?_, ?_, ?_⟩
      · intro v hv
        rcases hvals.1 with he | he <;> rw [he] at hv
        · exact Or.inl hv
        · injection hv with hv
          exact Or.inr hv.symm
      · intro v hv
        rcases hvals.2 with he | he <;> rw [he] at hv
        · exact Or.inl hv
        · injection hv with hv
          exact Or.inr hv.symm
      · intro _
        exact scanText_sets_first
  -- facts after the function-call step
  obtain ⟨hB1, hB2, hB3, hB4, hB5, hB6⟩ := hB
  have hfcf := gemini_fc_step_ts (gemini_thought_step (gemini_sig_step st p) p).1 p hB1
  obtain ⟨hC1, hC2, hC3, hC4, hC5⟩ := hfcf
  -- facts after the text step
  rcases gemini_text_step_cases
      (gemini_fc_step (gemini_thought_step (gemini_sig_step st p) p).1 p) p with
    ⟨_, htx⟩ | ⟨tx, _, htx⟩
  · rw [htx]
    refine ⟨hC1, ?_, ?_, ?_, ?_, ?_⟩
    · intro v hv
      rw [hC4]
      exact hB2 v hv
    · intro v hv
      exact hC2 v (hB3 v hv)
    · intro v hv
      rw [hC4] at hv
      exact hB4 v hv
    · intro v hv
      rcases hC3 with he | he <;> rw [he] at hv
      · exact hB5 v hv
      · injection hv with hv
        exact Or.inr hv.symm
    · intro h
      rw [hC5]
      exact hB6 h
  · rw [htx]
    have hts := scanText_ts
      (gemini_fc_step (gemini_thought_step (gemini_sig_step st p) p).1 p).scan tx p.time hC1
    have hvals := scanText_vals
      (gemini_fc_step (gemini_thought_step (gemini_sig_step st p) p).1 p).scan tx p.time
    refine ⟨hts.1, ?_, ?_, ?_, ?_, ?_⟩
    · intro v hv
      refine hts.2.1 v ?_
      rw [hC4]
      exact hB2 v hv
    · intro v hv
      exact hts.2.2 v (hC2 v (hB3 v hv))
    · intro v hv
      rcases hvals.1 with he | he <;> rw [he] at hv
      · rw [hC4] at hv
        exact hB4 v hv
      · injection hv with hv
        exact Or.inr hv.symm
    · intro v hv
      rcases hvals.2 with he | he <;> rw [he] at hv
      · rcases hC3 with he2 | he2 <;> rw [he2] at hv
        · exact hB5 v hv
        · injection hv with hv
          exact Or.inr hv.symm
      · injection hv with hv
        exact Or.inr hv.symm
    · intro _
      exact scanText_sets_first

/-- Order of the two timestamps across a whole gemini part step: provided a
function call in this part is preceded (no later than this part) by a
token, a set thinking-end time always has a first-token time at or below
it. -/
theorem gemini_part_h4 (st : GState) (p : GPart)
    (h1 : TsInv st.scan)
    (h4 : ∀ u, st.scan.time_to_thinking_end = some u →
      ∃ t, st.scan.time_to_first_token = some t ∧ t ≤ u)
    (h2 : ∀ v, st.scan.time_to_first_token = some v → v ≤ p.time)
    (hOK : p.functionCall.isSome = true →
      st.scan.first_token_received = true ∨ gtoken p = true) :
    ∀ u, (gemini_step st p).1.scan.time_to_thinking_end = some u →
      ∃ t, (gemini_step st p).1.scan.time_to_first_token = some t ∧ t ≤ u := by
  rw [gemini_step_eq]
  have hsig := (gemini_sig_step_scan st p).1
  set B := (gemini_thought_step (gemini_sig_step st p) p).1 with hBdef
  set C := gemini_fc_step B p with hCdef
  set D := (gemini_text_step C p).1 with hDdef
  have hBfacts : TsInv B.scan ∧
      (∀ u, B.scan.time_to_thinking_end = some u →
        ∃ t, B.scan.time_to_first_token = some t ∧ t ≤ u) ∧
      (∀ v, B.scan.time_to_first_token = some v → v ≤ p.time) := by
    rcases gemini_thought_step_cases (gemini_sig_step st p) p with
      ⟨_, hth⟩ | ⟨t, _, _, hth⟩
    · rw [hBdef, hth]
      simp only [hsig]
      exact ⟨h1, h4, h2⟩
    · rw [hBdef, hth]
      simp only [hsig]
      refine ⟨(scanText_ts st.scan t p.time h1).1,
        scanText_c5 h1 h4 h2, ?_⟩
      intro v hv
      rcases (scanText_vals st.scan t p.time).1 with he | he <;> rw [he] at hv
      · exact h2 v hv
      · injection hv with hv
        omega
  obtain ⟨hB1, hB4, hB2⟩ := hBfacts
  by_cases hgood : p.functionCall = none ∨ B.scan.first_token_received = true
  · have hCfacts : TsInv C.scan ∧
        (∀ u, C.scan.time_to_thinking_end = some u →
          ∃ t, C.scan.time_to_first_token = some t ∧ t ≤ u) ∧
        (∀ v, C.scan.time_to_first_token = some v → v ≤ p.time) := by
      rcases hgood with hfc | hft
      · rw [hCdef, gemini_fc_step_none B p hfc]
        exact ⟨hB1, hB4, hB2⟩
      · have hc := gemini_fc_step_c5 B p hB1 hB4 hB2 hft
        refine ⟨hc.1, hc.2, ?_⟩
        intro v hv
        rw [(gemini_fc_step_ts B p hB1).2.2.2.1] at hv
        exact hB2 v hv
    obtain ⟨hC1, hC4, hC2⟩ := hCfacts
    rcases gemini_text_step_cases C p with ⟨_, htx⟩ | ⟨tx, _, htx⟩
    · rw [hDdef, htx]
      exact hC4
    · rw [hDdef, htx]
      exact scanText_c5 hC1 hC4 hC2
  · push_neg at hgood
    obtain ⟨hfcne, hBftf⟩ := hgood
    replace hBftf : B.scan.first_token_received = false := by
      simpa using hBftf
    rcases hfco : p.functionCall with _ | fc
    · exact absurd hfco hfcne
    have hBid : B.scan = st.scan := by
      rcases gemini_thought_step_cases (gemini_sig_step st p) p with
        ⟨_, hth⟩ | ⟨t, _, _, hth⟩
      · rw [hBdef, hth]
        exact hsig
      · exfalso
        have hset : B.scan.first_token_received = true := by
          rw [hBdef, hth]
          exact scanText_sets_first
        rw [hset] at hBftf
        exact Bool.noConfusion hBftf
    have hstf : st.scan.first_token_received = false := by
      rw [← hBid]
      exact hBftf
    have htok : gtoken p = true := by
      rcases hOK (by rw [hfco]; rfl) with h | h
      · rw [hstf] at h
        exact Bool.noConfusion h
      · exact h
    have hthtriv : p.thought.getD [] = [] := by
      rcases gemini_thought_step_cases (gemini_sig_step st p) p with
        ⟨h0, _⟩ | ⟨t, _, _, hth⟩
      · exact h0
      · exfalso
        have hset : B.scan.first_token_received = true := by
          rw [hBdef, hth]
          exact scanText_sets_first
        rw [hset] at hBftf
        exact Bool.noConfusion hBftf
    have htx : p.text.isSome = true := by
      unfold gtoken at htok
      rw [hthtriv] at htok
      simpa using htok
    have hAfalse : B.scan.in_action_phase = false := by
      cases hia : B.scan.in_action_phase
      · rfl
      · exfalso
        have hs : B.scan.time_to_thinking_end.isSome = true := by
          rw [hB1.2, hia]
        rcases ho : B.scan.time_to_thinking_end with _ | u
        · rw [ho] at hs
          exact Bool.noConfusion hs
        · obtain ⟨t, ht, _⟩ := hB4 u ho
          have : B.scan.time_to_first_token.isSome = true := by
            rw [ht]
            rfl
          rw [← hB1.1, hBftf] at this
          exact Bool.noConfusion this
    have hBtte : B.scan.time_to_thinking_end = none := by
      have hs := hB1.2
      rw [hAfalse] at hs
      rcases ho : B.scan.time_to_thinking_end with _ | u
      · rfl
      · rw [ho] at hs
        exact Bool.noConfusion hs
    have hCstep : C = gemini_fc_apply B fc p.time := by
      rw [hCdef]
      unfold gemini_fc_step
      rw [hfco]
    have hCscan : C.scan.time_to_thinking_end = some p.time ∧
        C.scan.time_to_first_token = B.scan.time_to_first_token ∧
        C.scan.first_token_received = false ∧ TsInv C.scan := by
      refine ⟨?_, (gemini_fc_step_ts B p hB1).2.2.2.1, ?_, (gemini_fc_step_ts B p hB1).1⟩
      · rw [hCstep]
        unfold gemini_fc_apply
        rw [if_pos (by simp [hAfalse])]
        simp [hBtte]
      · rw [(gemini_fc_step_ts B p hB1).2.2.2.2, hBftf]
    rcases hxo : p.text with _ | tx
    · rw [hxo] at htx
      exact Bool.noConfusion htx
    have hDd : D = { C with scan := (scanText C.scan tx p.time).1 } := by
      rw [hDdef]
      unfold gemini_text_step
      rw [hxo]
    intro u hu
    have htteD : D.scan.time_to_thinking_end = some p.time := by
      rw [hDd]
      exact (scanText_ts C.scan tx p.time hCscan.2.2.2).2.2 p.time hCscan.1
    have htfD : D.scan.time_to_first_token = some p.time := by
      rw [hDd]
      exact scanText_first_val hCscan.2.2.1
    rw [htteD] at hu
    injection hu with hu
    exact ⟨p.time, htfD, by omega⟩

theorem gemini_part_token (st : GState) (p : GPart) (h : gtoken p = true) :
    (gemini_step st p).1.scan.first_token_received = true := by
  rw [gemini_step_eq]
  rcases gemini_text_step_cases
      (gemini_fc_step (gemini_thought_step (gemini_sig_step st p) p).1 p) p with
    ⟨htx0, htx⟩ | ⟨tx, _, htx⟩
  · rw [htx]
    have hth : ¬ (p.thought.getD []).isEmpty = true := by
      unfold gtoken at h
      rw [htx0] at h
      simpa using h
    rcases gemini_thought_step_cases (gemini_sig_step st p) p with
      ⟨h0, _⟩ | ⟨t, _, _, hthq⟩
    · rw [h0] at hth
      simp at hth
    · have hBft : (gemini_thought_step (gemini_sig_step st p) p).1.scan.first_token_received = true := by
        rw [hthq]
        exact scanText_sets_first
      cases hfc : p.functionCall with
      | none =>
        rw [gemini_fc_step_none _ p hfc]
        exact hBft
      | some fc =>
        rw [(gemini_fc_step_some _ p fc hfc).2.2.2.2.1]
        exact hBft
  · rw [htx]
    exact scanText_sets_first

theorem gemini_run_c5 (endTime : Nat) :
    ∀ (ps : List GPart) (st : GState),
      TsInv st.scan →
      (∀ u, st.scan.time_to_thinking_end = some u →
        ∃ t, st.scan.time_to_first_token = some t ∧ t ≤ u) →
      (∀ v, st.scan.time_to_first_token = some v →
        (∀ q ∈ ps, v ≤ q.time) ∧ v ≤ endTime) →
      (∀ v, st.scan.time_to_thinking_end = some v →
        (∀ q ∈ ps, v ≤ q.time) ∧ v ≤ endTime) →
      (∀ q ∈ ps, q.time ≤ endTime) →
      ps.Pairwise (fun a b => a.time ≤ b.time) →
      (∀ j, ∀ hj : j < ps.length, (ps.get ⟨j, hj⟩).functionCall.isSome = true →
        st.scan.first_token_received = true ∨
        ∃ i, ∃ hi : i < ps.length, i ≤ j ∧ gtoken (ps.get ⟨i, hi⟩) = true) →
      TsInv (gemini_run_from st ps).1.scan ∧
      (∀ u, (gemini_run_from st ps).1.scan.time_to_thinking_end = some u →
        (∃ t, (gemini_run_from st ps).1.scan.time_to_first_token = some t ∧ t ≤ u) ∧
        u ≤ endTime) ∧
      (∀ v, (gemini_run_from st ps).1.scan.time_to_first_token = some v →
        v ≤ endTime) := by
  intro ps
  induction ps with
  | nil =>
    intro st hts h4 hbf hbt _ _ _
    refine ⟨by simpa [gemini_run_from] using hts, ?_, ?_⟩
    · intro u hu
      rw [show (gemini_run_from st []).1 = st from rfl] at hu
      exact ⟨by simpa [gemini_run_from] using h4 u hu, (hbt u hu).2⟩
    · intro v hv
      rw [show (gemini_run_from st []).1 = st from rfl] at hv
      exact (hbf v hv).2
  | cons p ps ih =>
    intro st hts h4 hbf hbt htb hpw hrel
    rw [gemini_run_from_cons]
    have hbasic := gemini_part_basic st p hts
    obtain ⟨hts', hpf, hpt, hof, hot, hmono⟩ := hbasic
    have hOK : p.functionCall.isSome = true →
        st.scan.first_token_received = true ∨ gtoken p = true := by
      intro hfc
      rcases hrel 0 (by simp) (by simpa using hfc) with h | ⟨i, hi, hij, htok⟩
      · exact Or.inl h
      · have hi0 : i = 0 := Nat.le_zero.mp hij
        subst hi0
        exact Or.inr (by simpa using htok)
    have h4' := gemini_part_h4 st p hts h4
      (fun v hv => ((hbf v hv).1 p (by simp)))
      hOK
    have hpwt : ps.Pairwise (fun a b => a.time ≤ b.time) :=
      (List.pairwise_cons.mp hpw).2
    have hhead : ∀ q ∈ ps, p.time ≤ q.time :=
      (List.pairwise_cons.mp hpw).1
    refine ih (gemini_step st p).1 hts' h4' ?_ ?_ ?_ hpwt ?_
    · intro v hv
      rcases hof v hv with ho | ho
      · have hb := hbf v ho
        exact ⟨fun q hq => hb.1 q (by simp [hq]), hb.2⟩
      · subst ho
        exact ⟨hhead, htb p (by simp)⟩
    · intro v hv
      rcases hot v hv with ho | ho
      · have hb := hbt v ho
        exact ⟨fun q hq => hb.1 q (by simp [hq]), hb.2⟩
      · subst ho
        exact ⟨hhead, htb p (by simp)⟩
    · intro q hq
      exact htb q (by simp [hq])
    · intro j hj hfc
      rcases hrel (j + 1) (by simpa using Nat.succ_lt_succ hj) (by simpa using hfc) with
        h | ⟨i, hi, hij, htok⟩
      · exact Or.inl (hmono h)
      · cases i with
        | zero =>
          left
          exact gemini_part_token st p (by simpa using htok)
        | succ i' =>
          right
          exact ⟨i', by simpa using hi, by omega, by simpa using htok⟩

theorem openai_run_c5 (endTime : Nat) :
    ∀ (ds : List ODelta) (st : OState),
      TsInv st.scan →
      (∀ u, st.scan.time_to_thinking_end = some u →
        ∃ t, st.scan.time_to_first_token = some t ∧ t ≤ u) →
      (∀ v, st.scan.time_to_first_token = some v →
        (∀ q ∈ ds, v ≤ q.time) ∧ v ≤ endTime) →
      (∀ v, st.scan.time_to_thinking_end = some v →
        (∀ q ∈ ds, v ≤ q.time) ∧ v ≤ endTime) →
      (∀ q ∈ ds, q.time ≤ endTime) →
      ds.Pairwise (fun a b => a.time ≤ b.time) →
      TsInv (openai_run_from st ds).1.scan ∧
      (∀ u, (openai_run_from st ds).1.scan.time_to_thinking_end = some u →
        (∃ t, (openai_run_from st ds).1.scan.time_to_first_token = some t ∧ t ≤ u) ∧
        u ≤ endTime) ∧
      (∀ v, (openai_run_from st ds).1.scan.time_to_first_token = some v →
        v ≤ endTime) := by
  intro ds
  induction ds with
  | nil =>
    intro st hts h4 hbf hbt _ _
    refine ⟨by simpa [openai_run_from] using hts, ?_, ?_⟩
    · intro u hu
      rw [show (openai_run_from st []).1 = st from rfl] at hu
      exact ⟨by simpa [openai_run_from] using h4 u hu, (hbt u hu).2⟩
    · intro v hv
      rw [show (openai_run_from st []).1 = st from rfl] at hv
      exact (hbf v hv).2
  | cons d ds ih =>
    intro st hts h4 hbf hbt htb hpw
    rw [openai_run_from_cons]
    have hpwt : ds.Pairwise (fun a b => a.time ≤ b.time) :=
      (List.pairwise_cons.mp hpw).2
    have hhead : ∀ q ∈ ds, d.time ≤ q.time :=
      (List.pairwise_cons.mp hpw).1
    cases hdc : d.content with
    | none =>
      have hs := (openai_step_none st hdc).1
      refine ih (openai_step st d).1 (by rw [hs]; exact hts) (by rw [hs]; exact h4)
        ?_ ?_ ?_ hpwt
      · intro v hv
        rw [hs] at hv
        have hb := hbf v hv
        exact ⟨fun q hq => hb.1 q (by simp [hq]), hb.2⟩
      · intro v hv
        rw [hs] at hv
        have hb := hbt v hv
        exact ⟨fun q hq => hb.1 q (by simp [hq]), hb.2⟩
      · intro q hq
        exact htb q (by simp [hq])
    | some c =>
      have hs := (openai_step_some st hdc).1
      have h2d : ∀ v, st.scan.time_to_first_token = some v → v ≤ d.time := by
        intro v hv
        exact (hbf v hv).1 d (by simp)
      have hvals := scanText_vals st.scan c d.time
      refine ih (openai_step st d).1 (by rw [hs]; exact (scanText_ts st.scan c d.time hts).1)
        (by rw [hs]; exact scanText_c5 hts h4 h2d) ?_ ?_ ?_ hpwt
      · intro v hv
        rw [hs] at hv
        rcases hvals.1 with he | he <;> rw [he] at hv
        · have hb := hbf v hv
          exact ⟨fun q hq => hb.1 q (by simp [hq]), hb.2⟩
        · injection hv with hv
          subst hv
          exact ⟨hhead, htb d (by simp)⟩
      · intro v hv
        rw [hs] at hv
        rcases hvals.2 with he | he <;> rw [he] at hv
        · have hb := hbt v hv
          exact ⟨fun q hq => hb.1 q (by simp [hq]), hb.2⟩
        · injection hv with hv
          subst hv
          exact ⟨hhead, htb d (by simp)⟩
      · intro q hq
        exact htb q (by simp [hq])

theorem scanText_keep_first (st : ScanState) (c : List Char) (now : Nat)
    (h : st.first_token_received = true) :
    (scanText st c now).1.time_to_first_token = st.time_to_first_token := by
  by_cases hA : st.in_action_phase
  · rw [scanText_inAction hA]
    simp [h]
  · replace hA : st.in_action_phase = false := by simpa using hA
    cases hfind : findMarker (st.buffer ++ c) with
    | some m =>
      rw [scanText_found hA hfind]
      simp [h]
    | none =>
      cases hpot : isPotentialMarker (st.buffer ++ c) with
      | true =>
        rw [scanText_withhold hA hfind hpot]
        simp [h]
      | false =>
        rw [scanText_flush hA hfind hpot]
        simp [h]

theorem openai_run_keep_first :
    ∀ (ds : List ODelta) (st : OState),
      st.scan.first_token_received = true →
      (openai_run_from st ds).1.scan.time_to_first_token =
        st.scan.time_to_first_token ∧
      (openai_run_from st ds).1.scan.first_token_received = true := by
  intro ds
  induction ds with
  | nil =>
    intro st h
    exact ⟨rfl, h⟩
  | cons d ds ih =>
    intro st h
    rw [openai_run_from_cons]
    cases hdc : d.content with
    | none =>
      have hs := (openai_step_none st hdc).1
      have := ih (openai_step st d).1 (by rw [hs]; exact h)
      rw [hs] at this
      exact this
    | some c =>
      have hs := (openai_step_some st hdc).1
      have hkeep := scanText_keep_first st.scan c d.time h
      have hft : (openai_step st d).1.scan.first_token_received = true := by
        rw [hs]
        exact scanText_sets_first
      have := ih (openai_step st d).1 hft
      rw [hs, hkeep] at this
      exact this

/-- The first-token timestamp of the `openai_request` loop is the time of
the first content-bearing delta. -/
theorem openai_run_from_tfirst :
    ∀ (ds : List ODelta) (st : OState),
      st.scan.first_token_received = false →
      st.scan.time_to_first_token = none →
      (openai_run_from st ds).1.scan.time_to_first_token =
        ((ds.find? fun d => d.content.isSome).map ODelta.time) := by
  intro ds
  induction ds with
  | nil =>
    intro st _ h2
    simpa using h2
  | cons d ds ih =>
    intro st h1 h2
    rw [openai_run_from_cons]
    cases hdc : d.content with
    | none =>
      have hs := (openai_step_none st hdc).1
      rw [List.find?_cons_of_neg _ (by simp [hdc])]
      refine Eq.trans ?_ (ih (openai_step st d).1 (by rw [hs]; exact h1)
        (by rw [hs]; exact h2))
      rfl
    | some c =>
      have hs := (openai_step_some st hdc).1
      rw [List.find?_cons_of_pos _ (by simp [hdc])]
      have hset : (openai_step st d).1.scan.time_to_first_token = some d.time := by
        rw [hs]
        exact scanText_first_val h1
      have hft : (openai_step st d).1.scan.first_token_received = true := by
        rw [hs]
        exact scanText_sets_first
      rw [(openai_run_keep_first ds (openai_step st d).1 hft).1, hset]
      rfl

theorem gemini_fc_step_first (s : GState) (p : GPart) :
    (gemini_fc_step s p).scan.time_to_first_token = s.scan.time_to_first_token ∧
    (gemini_fc_step s p).scan.first_token_received = s.scan.first_token_received := by
  cases hfc : p.functionCall with
  | none =>
    rw [gemini_fc_step_none s p hfc]
    exact ⟨rfl, rfl⟩
  | some fc =>
    have hstep : gemini_fc_step s p = gemini_fc_apply s fc p.time := by
      unfold gemini_fc_step
      rw [hfc]
    rw [hstep]
    unfold gemini_fc_apply
    by_cases hA : s.scan.in_action_phase
    · rw [if_neg (by simp [hA])]
      exact ⟨rfl, rfl⟩
    · rw [if_pos (by simp [hA])]
      exact ⟨rfl, rfl⟩

theorem gemini_part_keep_first (st : GState) (p : GPart)
    (h : st.scan.first_token_received = true) :
    (gemini_step st p).1.scan.time_to_first_token = st.scan.time_to_first_token ∧
    (gemini_step st p).1.scan.first_token_received = true := by
  rw [gemini_step_eq]
  have hsig := (gemini_sig_step_scan st p).1
  have hB : (gemini_thought_step (gemini_sig_step st p) p).1.scan.time_to_first_token =
      st.scan.time_to_first_token ∧
      (gemini_thought_step (gemini_sig_step st p) p).1.scan.first_token_received = true := by
    rcases gemini_thought_step_cases (gemini_sig_step st p) p with
      ⟨_, hth⟩ | ⟨t, _, _, hth⟩
    · rw [hth, hsig]
      exact ⟨rfl, h⟩
    · rw [hth]
      simp only [hsig]
      exact ⟨scanText_keep_first st.scan t p.time h, scanText_sets_first⟩
  have hC := gemini_fc_step_first (gemini_thought_step (gemini_sig_step st p) p).1 p
  rcases gemini_text_step_cases
      (gemini_fc_step (gemini_thought_step (gemini_sig_step st p) p).1 p) p with
    ⟨_, htx⟩ | ⟨tx, _, htx⟩
  · rw [htx, hC.1, hC.2]
    exact hB
  · rw [htx]
    constructor
    · rw [scanText_keep_first _ tx p.time (by rw [hC.2]; exact hB.2), hC.1]
      exact hB.1
    · exact scanText_sets_first

theorem gemini_part_set_first (st : GState) (p : GPart)
    (h : st.scan.first_token_received = false) (htok : gtoken p = true) :
    (gemini_step st p).1.scan.time_to_first_token = some p.time ∧
    (gemini_step st p).1.scan.first_token_received = true := by
  rw [gemini_step_eq]
  have hsig := (gemini_sig_step_scan st p).1
  rcases gemini_thought_step_cases (gemini_sig_step st p) p with
    ⟨hth0, hth⟩ | ⟨t, _, _, hth⟩
  · -- trivial thought: the token must be a text part
    have htx : p.text.isSome = true := by
      unfold gtoken at htok
      rw [hth0] at htok
      simpa using htok
    rcases hxo : p.text with _ | tx
    · rw [hxo] at htx
      exact Bool.noConfusion htx
    have hC := gemini_fc_step_first (gemini_thought_step (gemini_sig_step st p) p).1 p
    have hCft : (gemini_fc_step (gemini_thought_step (gemini_sig_step st p) p).1 p).scan.first_token_received = false := by
      rw [hC.2, hth, hsig]
      exact h
    have hD : (gemini_text_step
        (gemini_fc_step (gemini_thought_step (gemini_sig_step st p) p).1 p) p).1 =
        { gemini_fc_step (gemini_thought_step (gemini_sig_step st p) p).1 p with
          scan := (scanText
            (gemini_fc_step (gemini_thought_step (gemini_sig_step st p) p).1 p).scan
            tx p.time).1 } := by
      unfold gemini_text_step
      rw [hxo]
    rw [hD]
    exact ⟨scanText_first_val hCft, scanText_sets_first⟩
  · -- truthy thought sets the first token
    have hBset : (gemini_thought_step (gemini_sig_step st p) p).1.scan.time_to_first_token =
        some p.time ∧
        (gemini_thought_step (gemini_sig_step st p) p).1.scan.first_token_received = true := by
      rw [hth]
      simp only [hsig]
      exact ⟨scanText_first_val h, scanText_sets_first⟩
    have hC := gemini_fc_step_first (gemini_thought_step (gemini_sig_step st p) p).1 p
    rcases gemini_text_step_cases
        (gemini_fc_step (gemini_thought_step (gemini_sig_step st p) p).1 p) p with
      ⟨_, htx⟩ | ⟨tx, _, htx⟩
    · rw [htx, hC.1, hC.2]
      exact hBset
    · rw [htx]
      constructor
      · rw [scanText_keep_first _ tx p.time (by rw [hC.2]; exact hBset.2), hC.1]
        exact hBset.1
      · exact scanText_sets_first

theorem gemini_part_no_token (st : GState) (p : GPart) (h : gtoken p = false) :
    (gemini_step st p).1.scan.time_to_first_token = st.scan.time_to_first_token ∧
    (gemini_step st p).1.scan.first_token_received = st.scan.first_token_received := by
  rw [gemini_step_eq]
  have hsig := (gemini_sig_step_scan st p).1
  have hth0 : (p.thought.getD []).isEmpty = true := by
    unfold gtoken at h
    rcases hb : (p.thought.getD []).isEmpty
    · rw [hb] at h
      simp at h
    · rfl
  have htx0 : p.text = none := by
    unfold gtoken at h
    rcases hb : p.text with _ | tx
    · rfl
    · rw [hb] at h
      simp at h
  have hBid : (gemini_thought_step (gemini_sig_step st p) p).1 = gemini_sig_step st p := by
    rcases gemini_thought_step_cases (gemini_sig_step st p) p with
      ⟨_, hth⟩ | ⟨t, hto, htn, _⟩
    · rw [hth]
    · exfalso
      rw [hto] at hth0
      simp only [Option.getD_some] at hth0
      rw [List.isEmpty_iff] at hth0
      exact htn hth0
  have hC := gemini_fc_step_first (gemini_thought_step (gemini_sig_step st p) p).1 p
  have hDid : (gemini_text_step
      (gemini_fc_step (gemini_thought_step (gemini_sig_step st p) p).1 p) p) =
      (gemini_fc_step (gemini_thought_step (gemini_sig_step st p) p).1 p, []) := by
    unfold gemini_text_step
    rw [htx0]
  rw [hDid]
  rw [hC.1, hC.2, hBid, hsig]
  exact ⟨rfl, rfl⟩

theorem gemini_run_keep_first :
    ∀ (ps : List GPart) (st : GState),
      st.scan.first_token_received = true →
      (gemini_run_from st ps).1.scan.time_to_first_token =
        st.scan.time_to_first_token ∧
      (gemini_run_from st ps).1.scan.first_token_received = true := by
  intro ps
  induction ps with
  | nil =>
    intro st h
    exact ⟨rfl, h⟩
  | cons p ps ih =>
    intro st h
    rw [gemini_run_from_cons]
    have hk := gemini_part_keep_first st p h
    have := ih (gemini_step st p).1 hk.2
    rw [hk.1] at this
    exact this

/-- The first-token timestamp of the `gemini_request` loop is the time of
the first token-bearing part. -/
theorem gemini_run_from_tfirst :
    ∀ (ps : List GPart) (st : GState),
      st.scan.first_token_received = false →
      st.scan.time_to_first_token = none →
      (gemini_run_from st ps).1.scan.time_to_first_token =
        ((ps.find? gtoken).map GPart.time) := by
  intro ps
  induction ps with
  | nil =>
    intro st _ h2
    simpa using h2
  | cons p ps ih =>
    intro st h1 h2
    rw [gemini_run_from_cons]
    cases hg : gtoken p with
    | false =>
      have hs := gemini_part_no_token st p hg
      rw [List.find?_cons_of_neg _ (by simp [hg])]
      refine Eq.trans ?_ (ih (gemini_step st p).1 (by rw [hs.2]; exact h1)
        (by rw [hs.1]; exact h2))
      rfl
    | true =>
      have hs := gemini_part_set_first st p h1 hg
      rw [List.find?_cons_of_pos _ (by simp [hg])]
      rw [(gemini_run_keep_first ps (gemini_step st p).1 hs.2).1, hs.1]
      rfl

/-! ### Claim C5 -/

/-- C5, counterexample.  A native stream whose functionCall part arrives
(at time 0) before any text (at time 1): the returned response has all
three durations present with `time_to_first_token = 1`,
`time_to_thinking_end = 0` and `total_time = 2`, so
`time_to_first_token ≤ time_to_thinking_end` fails. -/
theorem c5_counterexample :
    (client_request_gemini
      [⟨none, none, some ⟨"Tap".toList, [], none⟩, none, 0⟩,
       ⟨none, none, none, some "x".toList, 1⟩] 2).time_to_first_token = some 1 ∧
    (client_request_gemini
      [⟨none, none, some ⟨"Tap".toList, [], none⟩, none, 0⟩,
       ⟨none, none, none, some "x".toList, 1⟩] 2).time_to_thinking_end = some 0 ∧
    (client_request_gemini
      [⟨none, none, some ⟨"Tap".toList, [], none⟩, none, 0⟩,
       ⟨none, none, none, some "x".toList, 1⟩] 2).total_time = some 2 ∧
    ¬ ((1 : Nat) ≤ 0) := by
  decide

/-- C5 (amended).  With nondecreasing clock readings bounded by the final
reading: over the compatible-chat adapter every completed request with both
timestamps present satisfies `first_token ≤ thinking_end ≤ total`; over the
native adapter the same chain holds provided every functionCall part is
preceded (no later than its own part) by a text or thought token — a
native stream whose function call precedes all tokens can invert the first
inequality. -/
theorem c5_duration_ordering :
    (∀ (ds : List ODelta) (endTime : Nat),
      ds.Pairwise (fun a b => a.time ≤ b.time) →
      (∀ d ∈ ds, d.time ≤ endTime) →
      ∀ t u, (client_request_openai ds endTime).time_to_first_token = some t →
        (client_request_openai ds endTime).time_to_thinking_end = some u →
        t ≤ u ∧ u ≤ endTime ∧
        (client_request_openai ds endTime).total_time = some endTime) ∧
    (∀ (ps : List GPart) (endTime : Nat),
      ps.Pairwise (fun a b => a.time ≤ b.time) →
      (∀ q ∈ ps, q.time ≤ endTime) →
      (∀ j, ∀ hj : j < ps.length, (ps.get ⟨j, hj⟩).functionCall.isSome = true →
        ∃ i, ∃ hi : i < ps.length, i ≤ j ∧ gtoken (ps.get ⟨i, hi⟩) = true) →
      ∀ t u, (client_request_gemini ps endTime).time_to_first_token = some t →
        (client_request_gemini ps endTime).time_to_thinking_end = some u →
        t ≤ u ∧ u ≤ endTime ∧
        (client_request_gemini ps endTime).total_time = some endTime) := by
  constructor
  · intro ds endTime hpw htb t u htf htte
    have hrun := openai_run_c5 endTime ds ⟨initScan, none⟩
      ⟨rfl, rfl⟩
      (fun u hu => Option.noConfusion hu)
      (fun v hv => Option.noConfusion hv)
      (fun v hv => Option.noConfusion hv)
      htb hpw
    have htf' : (openai_run_from ⟨initScan, none⟩ ds).1.scan.time_to_first_token =
        some t := htf
    have htte' : (openai_run_from ⟨initScan, none⟩ ds).1.scan.time_to_thinking_end =
        some u := htte
    obtain ⟨⟨tw, htw, hle⟩, hub⟩ := hrun.2.1 u htte'
    rw [htf'] at htw
    injection htw with htw
    exact ⟨by omega, hub, rfl⟩
  · intro ps endTime hpw htb hrel t u htf htte
    have hrun := gemini_run_c5 endTime ps ⟨initScan, none, none, none⟩
      ⟨rfl, rfl⟩
      (fun u hu => Option.noConfusion hu)
      (fun v hv => Option.noConfusion hv)
      (fun v hv => Option.noConfusion hv)
      htb hpw
      (fun j hj hfc => Or.inr (hrel j hj hfc))
    have htf' : (gemini_run_from ⟨initScan, none, none, none⟩ ps).1.scan.time_to_first_token =
        some t := htf
    have htte' : (gemini_run_from ⟨initScan, none, none, none⟩ ps).1.scan.time_to_thinking_end =
        some u := htte
    obtain ⟨⟨tw, htw, hle⟩, hub⟩ := hrun.2.1 u htte'
    rw [htf'] at htw
    injection htw with htw
    exact ⟨by omega, hub, rfl⟩

/-- Witness for C5's amended theorem: a compatible-adapter stream whose
single delta contains a full do-marker at time 0, completing at time 1. -/
theorem c5_duration_ordering_witness :
    (0 : Nat) ≤ 0 ∧ (0 : Nat) ≤ 1 ∧
    (client_request_openai [⟨none, some "hi do(action=x".toList, 0⟩] 1).total_time =
      some 1 :=
  c5_duration_ordering.1 [⟨none, some "hi do(action=x".toList, 0⟩] 1
    (by decide) (by decide) 0 0 (by decide) (by decide)

theorem scanText_keeps_action {st : ScanState} {c : List Char} {now : Nat}
    (h : st.in_action_phase = true) :
    (scanText st c now).1.in_action_phase = true := by
  rw [scanText_inAction h]
  exact h

theorem gemini_fc_keeps_action (s : GState) (p : GPart)
    (h : s.scan.in_action_phase = true) :
    (gemini_fc_step s p).scan.in_action_phase = true := by
  cases hfc : p.functionCall with
  | none =>
    rw [gemini_fc_step_none s p hfc]
    exact h
  | some fc =>
    exact (gemini_fc_step_some s p fc hfc).1

/-! ### Claim C9 -/

/-- C9.  For both adapters: the action-phase flag never reverts once true;
timestamp-flag consistency is preserved and each timestamp, once set, keeps
its value (so each is assigned at most once); and the first-token timestamp
equals the clock reading of the first token-bearing unit of the stream (the
first content-bearing delta, resp. the first part with a truthy thought or
a present text field) — it is assigned exactly at the first step in which
its condition holds.  The analogous fact for the thinking-end time is the
`TsInv` component: it is set exactly when the phase flips. -/
theorem c9_phase_and_timestamps :
    (∀ (st : OState) (d : ODelta), st.scan.in_action_phase = true →
      (openai_step st d).1.scan.in_action_phase = true) ∧
    (∀ (st : GState) (p : GPart), st.scan.in_action_phase = true →
      (gemini_step st p).1.scan.in_action_phase = true) ∧
    (∀ (st : OState) (d : ODelta), TsInv st.scan →
      TsInv (openai_step st d).1.scan ∧
      (∀ v, st.scan.time_to_first_token = some v →
        (openai_step st d).1.scan.time_to_first_token = some v) ∧
      (∀ v, st.scan.time_to_thinking_end = some v →
        (openai_step st d).1.scan.time_to_thinking_end = some v)) ∧
    (∀ (st : GState) (p : GPart), TsInv st.scan →
      TsInv (gemini_step st p).1.scan ∧
      (∀ v, st.scan.time_to_first_token = some v →
        (gemini_step st p).1.scan.time_to_first_token = some v) ∧
      (∀ v, st.scan.time_to_thinking_end = some v →
        (gemini_step st p).1.scan.time_to_thinking_end = some v)) ∧
    (∀ ds : List ODelta, (openai_run ds).1.scan.time_to_first_token =
      ((ds.find? fun d => d.content.isSome).map ODelta.time)) ∧
    (∀ ps : List GPart, (gemini_run ps).1.scan.time_to_first_token =
      ((ps.find? gtoken).map GPart.time)) := by
  refine ⟨?_, ?_, ?_, ?_, ?_, ?_⟩
  · intro st d h
    cases hdc : d.content with
    | none =>
      rw [(openai_step_none st hdc).1]
      exact h
    | some c =>
      rw [(openai_step_some st hdc).1]
      exact scanText_keeps_action h
  · intro st p h
    rw [gemini_step_eq]
    have hsig := (gemini_sig_step_scan st p).1
    have hB : (gemini_thought_step (gemini_sig_step st p) p).1.scan.in_action_phase = true := by
      rcases gemini_thought_step_cases (gemini_sig_step st p) p with
        ⟨_, hth⟩ | ⟨t, _, _, hth⟩
      · rw [hth, hsig]
        exact h
      · rw [hth]
        simp only [hsig]
        exact scanText_keeps_action h
    have hC := gemini_fc_keeps_action _ p hB
    rcases gemini_text_step_cases
        (gemini_fc_step (gemini_thought_step (gemini_sig_step st p) p).1 p) p with
      ⟨_, htx⟩ | ⟨tx, _, htx⟩
    · rw [htx]
      exact hC
    · rw [htx]
      exact scanText_keeps_action hC
  · intro st d h
    cases hdc : d.content with
    | none =>
      rw [(openai_step_none st hdc).1]
      exact ⟨h, fun v hv => hv, fun v hv => hv⟩
    | some c =>
      rw [(openai_step_some st hdc).1]
      exact scanText_ts st.scan c d.time h
  · intro st p h
    have hb := gemini_part_basic st p h
    exact ⟨hb.1, hb.2.1, hb.2.2.1⟩
  · intro ds
    rw [openai_run_eq]
    exact openai_run_from_tfirst ds ⟨initScan, none⟩ rfl rfl
  · intro ps
    rw [gemini_run_eq]
    exact gemini_run_from_tfirst ps ⟨initScan, none, none, none⟩ rfl rfl

/-- Witness for C9 at concrete inputs: a state already in the action phase
stays in it, and a consistent state keeps its set thinking-end value. -/
theorem c9_phase_and_timestamps_witness :
    (openai_step ⟨⟨[], [], true, true, some 0, some 0⟩, none⟩
      ⟨none, some "x".toList, 5⟩).1.scan.in_action_phase = true ∧
    (openai_step ⟨⟨[], [], true, true, some 0, some 0⟩, none⟩
      ⟨none, some "x".toList, 5⟩).1.scan.time_to_thinking_end = some 0 :=
  ⟨c9_phase_and_timestamps.1 ⟨⟨[], [], true, true, some 0, some 0⟩, none⟩
      ⟨none, some "x".toList, 5⟩ (by decide),
   (c9_phase_and_timestamps.2.2.1 ⟨⟨[], [], true, true, some 0, some 0⟩, none⟩
      ⟨none, some "x".toList, 5⟩ (by exact ⟨rfl, rfl⟩)).2.2 0 (by decide)⟩

/-! ### Evaluation lemmas for `removeAll` -/

theorem removeAll_nil (pat : List Char) : removeAll pat [] = [] := by
  rw [removeAll]

theorem removeAll_cons_pos (pat : List Char) (c : Char) (rest : List Char)
    (h1 : pat ≠ []) (h2 : pat.isPrefixOf (c :: rest) = true) :
    removeAll pat (c :: rest) = removeAll pat ((c :: rest).drop pat.length) := by
  rw [removeAll]
  rw [dif_pos ⟨h1, h2⟩]

theorem removeAll_cons_neg (pat : List Char) (c : Char) (rest : List Char)
    (h : ¬(pat ≠ [] ∧ pat.isPrefixOf (c :: rest) = true)) :
    removeAll pat (c :: rest) = c :: removeAll pat rest := by
  rw [removeAll]
  rw [dif_neg h]

/-- `replace` leaves a text alone when the pattern does not occur in it. -/
theorem removeAll_of_not_contains (pat : List Char) :
    ∀ s : List Char, pat ≠ [] → containsSubstr pat s = false →
      removeAll pat s = s := by
  intro s
  induction s with
  | nil => intro _ _; exact removeAll_nil pat
  | cons c rest ih =>
    intro hne hnc
    have hnocc : ¬ ∃ i, pat <+: (c :: rest).drop i := by
      intro hocc
      rw [containsSubstr_iff.mpr hocc] at hnc
      exact absurd hnc (by decide)
    have h0 : ¬ pat.isPrefixOf (c :: rest) = true := by
      intro hp
      exact hnocc ⟨0, isPrefB_iff.mp hp⟩
    rw [removeAll_cons_neg _ _ _ (fun hx => h0 hx.2)]
    congr 1
    refine ih hne ?_
    cases hc : containsSubstr pat rest with
    | false => rfl
    | true =>
      rcases containsSubstr_iff.mp hc with ⟨i, hi⟩
      exact absurd ⟨i + 1, by simpa using hi⟩ hnocc

/-- `replace` on a text starting with the pattern removes that occurrence
and continues on the remainder. -/
theorem removeAll_head (pat b : List Char) (hne : pat ≠ []) :
    removeAll pat (pat ++ b) = removeAll pat b := by
  cases hp : pat with
  | nil => exact absurd hp hne
  | cons c rest =>
    rw [List.cons_append]
    rw [removeAll_cons_pos _ _ _ (by simp)
      (isPrefB_iff.mpr ⟨b, by simp⟩)]
    have hd : ((c :: rest) ++ b).drop (c :: rest).length = b := by
      rw [List.drop_append_of_le_length (Nat.le_refl _)]
      rw [List.drop_length, List.nil_append]
    rw [List.cons_append] at hd
    rw [hd]

/-- `replace` on a text ending with the pattern's only occurrence keeps
exactly the part before it. -/
theorem removeAll_append_tail (pat : List Char) :
    ∀ a : List Char, pat ≠ [] →
      (∀ i, i < a.length → pat.isPrefixOf ((a ++ pat).drop i) = false) →
      removeAll pat (a ++ pat) = a := by
  intro a
  induction a with
  | nil =>
    intro hne _
    rw [List.nil_append]
    have : removeAll pat (pat ++ []) = removeAll pat [] := removeAll_head pat [] hne
    rw [List.append_nil] at this
    rw [this]
    exact removeAll_nil pat
  | cons c a' ih =>
    intro hne hocc
    have h0 : pat.isPrefixOf (c :: (a' ++ pat)) = false := by
      have h := hocc 0 (by simp)
      simpa using h
    rw [List.cons_append]
    rw [removeAll_cons_neg _ _ _ (fun hx => by
      rw [h0] at hx
      exact Bool.false_ne_true hx.2)]
    congr 1
    refine ih hne ?_
    intro i hi
    have h := hocc (i + 1) (by simpa using Nat.succ_lt_succ hi)
    simpa using h

/-! ### Claim C6 -/

/-- C6.  For non-whitespace-only raw text, `_parse_response` applies its
rules in precedence order: a finish-marker occurrence splits at its first
occurrence (thinking = stripped text before, action = stripped text from
the marker on, cleaned of the legacy close tag); otherwise a do-marker
occurrence splits the same way; otherwise a legacy `<answer>` bracket
splits on the bracket tokens with the tag literals removed from both
halves; otherwise the whole text is the action and thinking is empty.  In
particular the legacy fixture splits into thinking `considering` and
action `Back`. -/
theorem c6_parse_precedence :
    (∀ content : List Char, pyStrip content ≠ [] →
      (containsSubstr finishMarker content = true →
        parse_response content =
          (pyStrip (takeBeforeFirst finishMarker content),
           pyStrip (removeAll "</answer>".toList
             (dropFromFirst finishMarker content)))) ∧
      (containsSubstr finishMarker content = false →
        containsSubstr doMarker content = true →
        parse_response content =
          (pyStrip (takeBeforeFirst doMarker content),
           pyStrip (removeAll "</answer>".toList
             (dropFromFirst doMarker content)))) ∧
      (containsSubstr finishMarker content = false →
        containsSubstr doMarker content = false →
        containsSubstr "<answer>".toList content = true →
        parse_response content =
          (pyStrip (removeAll "</think>".toList (removeAll "<think>".toList
              (takeBeforeFirst "<answer>".toList content))),
           pyStrip (removeAll "</answer>".toList
              ((dropFromFirst "<answer>".toList content).drop
                "<answer>".toList.length)))) ∧
      (containsSubstr finishMarker content = false →
        containsSubstr doMarker content = false →
        containsSubstr "<answer>".toList content = false →
        parse_response content = ([], content))) ∧
    parse_response "<think>considering</think><answer>Back</answer>".toList =
      ("considering".toList, "Back".toList) := by
  constructor
  · intro content hne
    refine ⟨?_, ?_, ?_, ?_⟩
    · intro h1
      rw [parse_response, if_neg hne, if_pos h1]
    · intro h1 h2
      rw [parse_response, if_neg hne, if_neg (by simp [h1]), if_pos h2]
    · intro h1 h2 h3
      rw [parse_response, if_neg hne, if_neg (by simp [h1]),
        if_neg (by simp [h2]), if_pos h3]
    · intro h1 h2 h3
      rw [parse_response, if_neg hne, if_neg (by simp [h1]),
        if_neg (by simp [h2]), if_neg (by simpa using h3)]
  · rw [parse_response, if_neg (by decide), if_neg (by decide),
      if_neg (by decide), if_pos (by decide)]
    have e1 : takeBeforeFirst "<answer>".toList
        "<think>considering</think><answer>Back</answer>".toList =
        "<think>considering</think>".toList := by decide
    rw [e1]
    have h2a : ("<think>considering</think>".toList : List Char) =
        "<think>".toList ++ "considering</think>".toList := by decide
    have e2 : removeAll "<think>".toList "<think>considering</think>".toList =
        "considering</think>".toList := by
      rw [h2a, removeAll_head _ _ (by decide),
        removeAll_of_not_contains _ _ (by decide) (by decide)]
    rw [e2]
    have h3a : ("considering</think>".toList : List Char) =
        "considering".toList ++ "</think>".toList := by decide
    have e3 : removeAll "</think>".toList "considering</think>".toList =
        "considering".toList := by
      rw [h3a]
      exact removeAll_append_tail _ _ (by decide) (by decide)
    rw [e3]
    have e4 : (dropFromFirst "<answer>".toList
        "<think>considering</think><answer>Back</answer>".toList).drop
        "<answer>".toList.length = "Back</answer>".toList := by decide
    rw [e4]
    have h5a : ("Back</answer>".toList : List Char) =
        "Back".toList ++ "</answer>".toList := by decide
    have e5 : removeAll "</answer>".toList "Back</answer>".toList =
        "Back".toList := by
      rw [h5a]
      exact removeAll_append_tail _ _ (by decide) (by decide)
    rw [e5]
    decide

/-- Witness for C6 at a concrete input containing the finish marker. -/
theorem c6_parse_precedence_witness :
    parse_response "x finish(message=done".toList =
      (pyStrip (takeBeforeFirst finishMarker "x finish(message=done".toList),
       pyStrip (removeAll "</answer>".toList
         (dropFromFirst finishMarker "x finish(message=done".toList))) :=
  (c6_parse_precedence.1 "x finish(message=done".toList (by decide)).1 (by decide)

/-! ### Claim C7 -/

/-- C7.  The action mapper sends `finish` to the termination kind with the
arguments passed through unchanged; `Long_Press` and `Double_Tap` are
rewritten to `Long Press` and `Double Tap` and mapped to the generic do
kind; every other name maps to the do kind carrying the name itself,
unrewritten, as the action type with the arguments merged in — so the
underscore rewrite applies to exactly those two names. -/
theorem c7_action_mapper :
    (∀ args, map_gemini_to_internal "finish".toList args =
      { kind := "finish".toList, action_type := none, args := args }) ∧
    (∀ args, map_gemini_to_internal "Long_Press".toList args =
      { kind := "do".toList, action_type := some "Long Press".toList,
        args := args }) ∧
    (∀ args, map_gemini_to_internal "Double_Tap".toList args =
      { kind := "do".toList, action_type := some "Double Tap".toList,
        args := args }) ∧
    (∀ (name : List Char) args, name ≠ "finish".toList →
      name ≠ "Long_Press".toList → name ≠ "Double_Tap".toList →
      map_gemini_to_internal name args =
        { kind := "do".toList, action_type := some name, args := args }) := by
  refine ⟨fun args => rfl, fun args => rfl, fun args => rfl, ?_⟩
  intro name args h1 h2 h3
  rw [map_gemini_to_internal]
  rw [if_neg h1]
  show «do» (if name = "Long_Press".toList ∨ name = "Double_Tap".toList then
      name.map fun c => if c = '_' then ' ' else c
    else name) args = _
  rw [if_neg (fun hor => hor.elim h2 h3)]
  rfl

/-- Witness for C7: a generic vendor name passes through unrewritten. -/
theorem c7_action_mapper_witness :
    map_gemini_to_internal "Swipe_Up".toList [] =
      { kind := "do".toList, action_type := some "Swipe_Up".toList,
        args := [] } :=
  c7_action_mapper.2.2.2 "Swipe_Up".toList [] (by decide) (by decide) (by decide)

theorem gemini_step_fc (st : GState) (p : GPart) (fc : FunctionCall)
    (h : p.functionCall = some fc) :
    (gemini_step st p).1.scan.in_action_phase = true ∧
    (gemini_step st p).1.structured_action =
      some (map_gemini_to_internal fc.name fc.args) ∧
    (gemini_step st p).1.tool_call_id = fc.id := by
  rw [gemini_step_eq]
  have hfc := gemini_fc_step_some
    (gemini_thought_step (gemini_sig_step st p) p).1 p fc h
  rcases gemini_text_step_cases
      (gemini_fc_step (gemini_thought_step (gemini_sig_step st p) p).1 p) p with
    ⟨_, htx⟩ | ⟨t, _, htx⟩
  · rw [htx]
    exact ⟨hfc.1, hfc.2.1, hfc.2.2.1⟩
  · rw [htx]
    exact ⟨scanText_keeps_action hfc.1, hfc.2.1, hfc.2.2.1⟩

/-! ### Claim C8 -/

/-- C8.  A part carrying a function call forces the action phase
immediately after the part is processed (whatever the prior state and even
with no text seen), records the mapped structured action, and preserves
the call's optional identifier; in particular the concrete `Tap` call with
args `{element: [500, 500]}` arriving before any text yields the action
phase and the mapped do-kind structured action in the returned response. -/
theorem c8_function_call_forces_action :
    (∀ (st : GState) (p : GPart) (fc : FunctionCall),
      p.functionCall = some fc →
      (gemini_step st p).1.scan.in_action_phase = true ∧
      (gemini_step st p).1.structured_action =
        some (map_gemini_to_internal fc.name fc.args) ∧
      (gemini_step st p).1.tool_call_id = fc.id) ∧
    ((gemini_run [⟨none, none, some ⟨"Tap".toList,
        [("element".toList, JVal.arr [JVal.num 500, JVal.num 500])], none⟩,
        none, 0⟩]).1.scan.in_action_phase = true ∧
     (client_request_gemini [⟨none, none, some ⟨"Tap".toList,
        [("element".toList, JVal.arr [JVal.num 500, JVal.num 500])], none⟩,
        none, 0⟩] 1).structured_action =
       some { kind := "do".toList, action_type := some "Tap".toList,
              args := [("element".toList,
                JVal.arr [JVal.num 500, JVal.num 500])] } ∧
     (client_request_gemini [⟨none, none, some ⟨"Tap".toList,
        [("element".toList, JVal.arr [JVal.num 500, JVal.num 500])], none⟩,
        none, 0⟩] 1).tool_call_id = none) := by
  constructor
  · intro st p fc h
    exact gemini_step_fc st p fc h
  · exact ⟨by decide, by decide, by decide⟩

/-- Witness for C8: the general part applied to the concrete `Tap` call
part from the initial state. -/
theorem c8_function_call_forces_action_witness :
    (gemini_step ⟨initScan, none, none, none⟩ ⟨none, none, some ⟨"Tap".toList,
        [("element".toList, JVal.arr [JVal.num 500, JVal.num 500])], none⟩,
        none, 0⟩).1.scan.in_action_phase = true ∧
    (gemini_step ⟨initScan, none, none, none⟩ ⟨none, none, some ⟨"Tap".toList,
        [("element".toList, JVal.arr [JVal.num 500, JVal.num 500])], none⟩,
        none, 0⟩).1.tool_call_id = none :=
  have h := c8_function_call_forces_action.1 ⟨initScan, none, none, none⟩
    ⟨none, none, some ⟨"Tap".toList,
      [("element".toList, JVal.arr [JVal.num 500, JVal.num 500])], none⟩,
      none, 0⟩
    ⟨"Tap".toList, [("element".toList, JVal.arr [JVal.num 500, JVal.num 500])],
      none⟩ rfl
  ⟨h.1, h.2.2⟩

/-- One native part appends its truthy thought text and its text field (in
that order) to the accumulated raw content, whatever the phase. -/
theorem gemini_step_raw (st : GState) (p : GPart) :
    (gemini_step st p).1.scan.raw_content =
      st.scan.raw_content ++ (p.thought.getD [] ++ p.text.getD []) := by
  rw [gemini_step_eq]
  have hsig := (gemini_sig_step_scan st p).1
  have hth : (gemini_thought_step (gemini_sig_step st p) p).1.scan.raw_content =
      st.scan.raw_content ++ p.thought.getD [] := by
    rcases gemini_thought_step_cases (gemini_sig_step st p) p with
      ⟨hemp, hts⟩ | ⟨t, ht, hne, hts⟩
    · rw [hts, hsig, hemp, List.append_nil]
    · rw [hts]
      show (scanText (gemini_sig_step st p).scan t p.time).1.raw_content = _
      rw [scanText_raw, hsig, ht]
      rfl
  have hfcr : (gemini_fc_step
      (gemini_thought_step (gemini_sig_step st p) p).1 p).scan.raw_content =
      st.scan.raw_content ++ p.thought.getD [] := by
    cases hfc : p.functionCall with
    | none => rw [gemini_fc_step_none _ p hfc, hth]
    | some fc => rw [(gemini_fc_step_some _ p fc hfc).2.2.2.1, hth]
  rcases gemini_text_step_cases
      (gemini_fc_step (gemini_thought_step (gemini_sig_step st p) p).1 p) p with
    ⟨htn, htx⟩ | ⟨t, ht, htx⟩
  · rw [htx]
    show (gemini_fc_step
      (gemini_thought_step (gemini_sig_step st p) p).1 p).scan.raw_content = _
    rw [hfcr, htn]
    simp
  · rw [htx]
    show (scanText (gemini_fc_step
      (gemini_thought_step (gemini_sig_step st p) p).1 p).scan t
        p.time).1.raw_content = _
    rw [scanText_raw, hfcr, ht]
    simp

/-- The raw content accumulated by the `gemini_request` loop is the
concatenation, in arrival order, of every thought string and text field. -/
theorem gemini_run_from_raw :
    ∀ (ps : List GPart) (st : GState),
      (gemini_run_from st ps).1.scan.raw_content =
        st.scan.raw_content ++
          (ps.map fun p => p.thought.getD [] ++ p.text.getD []).flatten := by
  intro ps
  induction ps with
  | nil => intro st; simp [gemini_run_from]
  | cons p ps ih =>
    intro st
    rw [gemini_run_from_cons]
    show (gemini_run_from (gemini_step st p).1 ps).1.scan.raw_content = _
    rw [ih, gemini_step_raw]
    simp

/-! ### Claim C10 -/

/-- C10.  The returned raw content is the concatenation, in arrival order,
of every text delta (compatible adapter) resp. every thought string and
text field (native adapter), independent of the phase; in particular a
native stream consisting of a single function-call part yields empty raw
content, hence empty thinking and action text, while the structured action
carries the decision. -/
theorem c10_raw_content_concatenation :
    (∀ ds : List ODelta, (openai_run ds).1.scan.raw_content =
      (ds.filterMap ODelta.content).flatten) ∧
    (∀ ps : List GPart, (gemini_run ps).1.scan.raw_content =
      (ps.map fun p => p.thought.getD [] ++ p.text.getD []).flatten) ∧
    ((client_request_gemini [⟨none, none, some ⟨"Tap".toList,
        [("element".toList, JVal.arr [JVal.num 500, JVal.num 500])], none⟩,
        none, 0⟩] 1).raw_content = [] ∧
     (client_request_gemini [⟨none, none, some ⟨"Tap".toList,
        [("element".toList, JVal.arr [JVal.num 500, JVal.num 500])], none⟩,
        none, 0⟩] 1).thinking = [] ∧
     (client_request_gemini [⟨none, none, some ⟨"Tap".toList,
        [("element".toList, JVal.arr [JVal.num 500, JVal.num 500])], none⟩,
        none, 0⟩] 1).action = [] ∧
     (client_request_gemini [⟨none, none, some ⟨"Tap".toList,
        [("element".toList, JVal.arr [JVal.num 500, JVal.num 500])], none⟩,
        none, 0⟩] 1).structured_action =
       some { kind := "do".toList, action_type := some "Tap".toList,
              args := [("element".toList,
                JVal.arr [JVal.num 500, JVal.num 500])] }) := by
  refine ⟨?_, ?_, by decide, by decide, by decide, by decide⟩
  · intro ds
    rw [openai_run_eq, openai_run_from_raw ds ⟨initScan, none⟩]
    rfl
  · intro ps
    rw [gemini_run_eq, gemini_run_from_raw ps ⟨initScan, none, none, none⟩]
    rfl
